import Mathlib

/-!
Verification development for the TimeSystem repository (src/main.py with the
earlier revision src/time_system.py): a shallow embedding of the unit
hierarchy compiler, the exact-rational arithmetic used by conversions, the
exact/repeating division engines, and the token-level bidirectional
converter, together with theorems settling the specification claims.

Modelling conventions:
* Python Decimal values are modelled as exact rationals (the Decimal
  arithmetic on the values appearing here is exact).
* Python Decimal `%` truncates toward zero (the remainder keeps the sign of
  the dividend); it is modelled by dmod below.  Python `int(...)` truncation
  is modelled by qtrunc.
* The regex tokenizers are modelled at the token level: the converter
  functions consume the token lists that split_inclusive produces from a
  template or value string.  split_inclusive itself is modelled over the
  ordered, non-overlapping match-span list that re.finditer yields.
* Python runtime failures (AssertionError, AttributeError, IndexError,
  decimal.InvalidOperation, TypeError, ZeroDivisionError) are modelled as
  Except values carrying a PyError tag.
-/

namespace TimeSystem

/-- Truncation toward zero: the behaviour of Python `int(...)` on a Decimal. -/
def qtrunc (q : ℚ) : ℤ := if 0 ≤ q then ⌊q⌋ else ⌈q⌉

/-- Python Decimal remainder `a % b`: `a - b * trunc(a / b)`, whose result
keeps the sign of the dividend (unlike mathematical/Euclidean mod). -/
def dmod (a b : ℚ) : ℚ := a - b * (qtrunc (a / b) : ℚ)

/-- Euclidean remainder on rationals, used to state "mod" claims of the
specification mathematically. -/
def qmod (a b : ℚ) : ℚ := a - b * (⌊a / b⌋ : ℚ)

theorem qtrunc_of_nonneg {q : ℚ} (h : 0 ≤ q) : qtrunc q = ⌊q⌋ := by
  simp [qtrunc, h]

theorem qtrunc_intCast (k : ℤ) : qtrunc (k : ℚ) = k := by
  rcases le_or_lt 0 (k : ℚ) with h | h
  · simp [qtrunc, h]
  · simp [qtrunc, not_le.mpr h, Int.ceil_intCast]

theorem dmod_zero_left (b : ℚ) : dmod 0 b = 0 := by
  simp [dmod, qtrunc]

theorem dmod_eq_mul_fract {a b : ℚ} (hb : b ≠ 0) (hf : 0 ≤ a / b) :
    dmod a b = b * Int.fract (a / b) := by
  rw [dmod, qtrunc_of_nonneg hf, Int.fract, mul_sub, mul_comm b (a / b),
    div_mul_cancel₀ a hb]

theorem dmod_nonneg {a b : ℚ} (ha : 0 ≤ a) (hb : 0 < b) : 0 ≤ dmod a b := by
  have hf : (0 : ℚ) ≤ a / b := div_nonneg ha hb.le
  rw [dmod_eq_mul_fract hb.ne' hf]
  exact mul_nonneg hb.le (Int.fract_nonneg _)

theorem dmod_lt {a b : ℚ} (ha : 0 ≤ a) (hb : 0 < b) : dmod a b < b := by
  have hf : (0 : ℚ) ≤ a / b := div_nonneg ha hb.le
  rw [dmod_eq_mul_fract hb.ne' hf]
  calc b * Int.fract (a / b) < b * 1 := by
        exact (mul_lt_mul_left hb).mpr (Int.fract_lt_one _)
    _ = b := mul_one b

theorem dmod_le_self {a b : ℚ} (ha : 0 ≤ a) (hb : 0 < b) : dmod a b ≤ a := by
  have hf : (0 : ℚ) ≤ a / b := div_nonneg ha hb.le
  have hfl : (0 : ℤ) ≤ ⌊a / b⌋ := Int.floor_nonneg.mpr hf
  have : (0 : ℚ) ≤ b * (⌊a / b⌋ : ℚ) := by
    apply mul_nonneg hb.le
    exact_mod_cast hfl
  rw [dmod, qtrunc_of_nonneg hf]
  linarith

/-- For a nonnegative multiple plus a remainder in range, dmod recovers the
remainder. -/
theorem dmod_mul_add {b r : ℚ} (k : ℤ) (hk : 0 ≤ k) (hr : 0 ≤ r) (hrb : r < b) :
    dmod ((k : ℚ) * b + r) b = r := by
  have hb : 0 < b := lt_of_le_of_lt hr hrb
  have hdiv : ((k : ℚ) * b + r) / b = (k : ℚ) + r / b := by
    field_simp
  have hfr : (0 : ℚ) ≤ r / b := div_nonneg hr hb.le
  have hfr1 : r / b < 1 := (div_lt_one hb).mpr hrb
  have hfloor : ⌊((k : ℚ) * b + r) / b⌋ = k := by
    rw [hdiv, add_comm, Int.floor_add_int]
    rw [Int.floor_eq_zero_iff.mpr ⟨hfr, hfr1⟩]
    ring
  have hnn : 0 ≤ ((k : ℚ) * b + r) / b := by
    rw [hdiv]
    have : (0 : ℚ) ≤ (k : ℚ) := by exact_mod_cast hk
    linarith
  rw [dmod, qtrunc_of_nonneg hnn, hfloor]
  ring

/-- Shifting by an integer multiple of the (nonzero) modulus does not change
the Euclidean remainder. -/
theorem qmod_add_int_mul {b : ℚ} (hb : b ≠ 0) (a : ℚ) (k : ℤ) :
    qmod (a + (k : ℚ) * b) b = qmod a b := by
  have hdiv : (a + (k : ℚ) * b) / b = a / b + (k : ℚ) := by
    field_simp
  rw [qmod, qmod, hdiv, Int.floor_add_int]
  push_cast
  ring

/-!
## Units (src/main.py lines 1006-1078)

A compiled unit is its lineage: the chain of parent links from the unit up
to the base unit, each non-base link carrying the working conversion factor
that `compile` stored on the unit object.  `to_base`/`from_base` are the
recursions of `Unit.to_base` / `Unit.from_base` (main.py lines 1043-1057):
multiply (respectively divide) by the working factor at every step.
-/

/-- A compiled unit view: the base unit, or a unit with a parent and the
working conversion factor set on it by `compile`. -/
inductive CUnit where
  | base : CUnit
  | sub (parent : CUnit) (working_conversion_factor : ℚ) : CUnit
deriving DecidableEq

/-- `Unit.to_base` (main.py 1043-1049): `x` if the unit has no parent, else
`parent.to_base(x) * working_conversion_factor`. -/
def to_base : CUnit → ℚ → ℚ
  | .base, x => x
  | .sub p w, x => to_base p x * w

/-- `Unit.from_base` (main.py 1051-1057): `x` if the unit has no parent, else
`parent.from_base(x) / working_conversion_factor`.  Division by a zero
working factor (a ZeroDivisionError in Python) is the rational-number
convention `x / 0 = 0`. -/
def from_base : CUnit → ℚ → ℚ
  | .base, x => x
  | .sub p w, x => from_base p x / w

/-- `get_working_conversion_factor`: the factor stored on the unit itself
(1 for the base unit, as `compile` sets it). -/
def get_working_conversion_factor : CUnit → ℚ
  | .base => 1
  | .sub _ w => w

theorem to_base_eq_mul (u : CUnit) (x : ℚ) : to_base u x = x * to_base u 1 := by
  induction u generalizing x with
  | base => simp [to_base]
  | sub p w ih =>
      simp only [to_base]
      rw [ih x, ih 1]
      ring

theorem from_base_eq_div (u : CUnit) (x : ℚ) : from_base u x = x / to_base u 1 := by
  induction u generalizing x with
  | base => simp [from_base, to_base]
  | sub p w ih =>
      simp only [from_base, to_base]
      rw [ih x, div_div]

/-- C2 (amended): lineage-wise multiplication and division by the working
conversion factors are exact inverses for every unit whose lineage product
`to_base(u, 1)` is nonzero; no rounding is introduced by the rational
arithmetic. -/
theorem C2_unit_inverse_amended (u : CUnit) (x : ℚ) (h : to_base u 1 ≠ 0) :
    from_base u (to_base u x) = x := by
  rw [from_base_eq_div, to_base_eq_mul]
  field_simp

/-- Witness for C2 (amended) at the unit "Minute" of the Gregorian system
(working factor 60 over the base unit) and the value x = 7/3. -/
theorem C2_unit_inverse_witness :
    to_base (CUnit.sub CUnit.base 60) 1 ≠ 0 ∧
      from_base (CUnit.sub CUnit.base 60) (to_base (CUnit.sub CUnit.base 60) (7 / 3)) = 7 / 3 :=
  ⟨by norm_num [to_base], C2_unit_inverse_amended (CUnit.sub CUnit.base 60) (7 / 3)
    (by norm_num [to_base])⟩

/-!
## System definitions and compile (src/main.py lines 86-134, 563-750)

A `SysDef` is the pre-compile state of a TimeSystem: the `_units`,
`_exceptions`, `_exact_divs` and `_repeating_divs` lists.  `compile` is
modelled as a function from that state (plus the prior `_compiled` flag) to
the observable post-call state: the optional raised error, the `_compiled`
flag, and the by-name table of unit views (parent chains with the working
conversion factors stored on the unit objects).
-/

/-- A declared unit (main.py 1006-1014): name, nominal conversion factor,
optional parent name. -/
structure TUnit where
  name : String
  conversion_factor : ℚ
  parent_unit_name : Option String
deriving DecidableEq

/-- `TimeSystem.TimeException` (main.py 881-894). -/
structure TimeException where
  name : String
  interval_amount : ℚ
  interval_amount_unit_name : String
  add_amount : ℚ
  add_amount_unit_name : String
deriving DecidableEq

/-- `TimeSystem.ExactDivision` (main.py 899-947); subdivision counts are
Python ints. -/
structure ExactDivision where
  name : String
  name_of_unit_dividing : String
  name_of_unit_dividing_into : String
  div_defs : List (String × ℤ)
  div_corrections : List (String × String)
deriving DecidableEq

/-- `TimeSystem.RepeatingDivision` (main.py 979-1004); weights are int or
Decimal. -/
structure RepeatingDivision where
  name : String
  name_of_unit_in : String
  division_defs : List (String × ℚ)
deriving DecidableEq

/-- The mutable definition lists of a TimeSystem (main.py 126-134). -/
structure SysDef where
  units : List TUnit
  exceptions : List TimeException
  exact_divs : List ExactDivision
  repeating_divs : List RepeatingDivision
deriving DecidableEq

def find_unit (sys : SysDef) (n : String) : Option TUnit :=
  sys.units.find? (fun u => u.name = n)

/-- The children of a named unit, as linked by compile (main.py 643-648):
every declared unit whose parent name is this unit's name. -/
def children (sys : SysDef) (n : String) : List TUnit :=
  sys.units.filter (fun u => u.parent_unit_name = some n)

/-- Duplicate detection, as done by the dictionary-insertion asserts in
compile (main.py 622-640). -/
def has_dup : List String → Bool
  | [] => false
  | n :: rest => rest.contains n || has_dup rest

/-- The strict-ancestor name chain of a unit, starting from a given parent
name: `reversed(u.get_lineage())` with the unit itself popped (main.py
666-667 and 699-701).  Fueled to keep the definition total on cyclic parent
graphs (which the source would never finish traversing). -/
def strict_ancestors (sys : SysDef) : ℕ → Option String → List String
  | _, none => []
  | 0, some _ => []
  | fuel + 1, some n =>
    n :: (match find_unit sys n with
          | some u => strict_ancestors sys fuel u.parent_unit_name
          | none => [])

/-- The reversed-lineage simulation inside compile (main.py 725-739): walk
`[curr_unit, ..., base_unit]` top-down, adding `add_amount` when the named
unit is reached and multiplying by each unit's current working factor, to
obtain the base-unit span of one interval-unit instance in which the
exception fires. -/
def exc_sim (add_name : String) (add_amount : ℚ) : List (String × ℚ) → ℚ → ℚ
  | [], c => c
  | (n, w) :: rest, c =>
      exc_sim add_name add_amount rest ((if n = add_name then c + add_amount else c) * w)

/-- The working-factor traversal of compile (main.py 704-748), parent before
child.  `lin` is the already-finalised ancestor chain `[(parent, wcf), ...,
(base, 1)]` top-down; the unit's own factor is still the nominal one when
its `base_amt` and the exception simulations are computed, exactly as in the
source (working factors are reset to nominal at lines 692-693 and updated
in traversal order).  Fueled; the fuel `sys.units.length` suffices for any
parent forest. -/
def walk (sys : SysDef) : ℕ → TUnit → List (String × ℚ) → CUnit → List (String × CUnit)
  | 0, _, _, _ => []
  | fuel + 1, u, lin, pc =>
    let base_amt := to_base (CUnit.sub pc u.conversion_factor) 1
    let rel := sys.exceptions.filter (fun e => e.interval_amount_unit_name = u.name)
    let add_amt := rel.foldl
      (fun acc e =>
        acc + (exc_sim e.add_amount_unit_name e.add_amount
                ((u.name, u.conversion_factor) :: lin) 1 - base_amt) / e.interval_amount) 0
    let w := from_base pc (base_amt + add_amt)
    (u.name, CUnit.sub pc w) ::
      (children sys u.name).foldl
        (fun acc c => acc ++ walk sys fuel c ((u.name, w) :: lin) (CUnit.sub pc w)) []

/-- Rebuild a unit's parent-chain view with a given per-unit factor
assignment (the working factors stored on the unit objects).  Fueled; `none`
models a chain that never reaches a parentless unit (whose conversions would
not terminate in the source either). -/
def build_cunit (sys : SysDef) (wcf_of : TUnit → ℚ) : ℕ → TUnit → Option CUnit
  | 0, _ => none
  | fuel + 1, u =>
    match u.parent_unit_name with
    | none => some CUnit.base
    | some p =>
      match find_unit sys p with
      | none => none
      | some pu => (build_cunit sys wcf_of fuel pu).map (fun pc => CUnit.sub pc (wcf_of u))

/-- The unit table right after compile resets every working factor to the
nominal factor (main.py 691-693), before the traversal has run. -/
def nominal_table (sys : SysDef) : List (String × CUnit) :=
  sys.units.filterMap
    (fun u => (build_cunit sys (fun v => v.conversion_factor) (sys.units.length + 1) u).map
      (fun c => (u.name, c)))

/-- The unit table after the full working-factor traversal (main.py
704-748): start from the single parentless unit (whose working factor the
traversal sets to 1) and recurse to children.  With no parentless unit the
source's stack is empty and every unit keeps its nominal factor. -/
def walkTable (sys : SysDef) : List (String × CUnit) :=
  match sys.units.filter (fun u => u.parent_unit_name = none) with
  | [b] => (b.name, CUnit.base) ::
      (children sys b.name).foldl
        (fun acc c => acc ++ walk sys sys.units.length c [(b.name, 1)] CUnit.base) []
  | _ => nominal_table sys

/-- The compile-time DefinitionError conditions (spec section 7). -/
inductive CompileErr where
  | dup_unit_name : CompileErr
  | dup_exception_name : CompileErr
  | dup_repeating_name : CompileErr
  | dup_exact_name : CompileErr
  | dangling_parent : CompileErr
  | two_base_units : CompileErr
  | undefined_unit : CompileErr
  | missing_correction : CompileErr
  | unknown_correction_label : CompileErr
  | undefined_unit_in : CompileErr
  | bad_exception_lineage : CompileErr
deriving DecidableEq

/-- The parent-linking checks of compile (main.py 642-652): a parent name
that resolves to no declared unit, or a second parentless unit.  (The source
raises whichever assert its single pass over `_units` reaches first; the
claims settled here do not depend on which of the two errors is reported
when both are present.) -/
def hierarchy_err (sys : SysDef) : Option CompileErr :=
  if sys.units.any (fun u =>
      match u.parent_unit_name with
      | some p => !(sys.units.any (fun v => v.name = p))
      | none => false) then some CompileErr.dangling_parent
  else if 2 ≤ (sys.units.filter (fun u => u.parent_unit_name = none)).length then
    some CompileErr.two_base_units
  else none

/-- The per-ExactDivision validation of compile (main.py 657-682): the
dividing and dividing-into units must be declared; every exception whose
add-unit lies on the strict ancestor chain of the dividing unit must be
covered by a correction; every correction's label must name a declared
subdivision.  (A correction naming an undeclared *exception* is not checked
here — the source only fails on that later, inside
`_get_exact_div_offsets`.) -/
def div_check (sys : SysDef) (d : ExactDivision) : Option CompileErr :=
  match find_unit sys d.name_of_unit_dividing with
  | none => some CompileErr.undefined_unit
  | some du =>
    if (find_unit sys d.name_of_unit_dividing_into).isNone then some CompileErr.undefined_unit
    else
      let anc := strict_ancestors sys (sys.units.length + 1) du.parent_unit_name
      match sys.exceptions.find? (fun e =>
          (find_unit sys e.add_amount_unit_name).isNone ||
            (anc.contains e.add_amount_unit_name &&
              !(d.div_corrections.any (fun c => c.1 = e.name)))) with
      | some e =>
          if (find_unit sys e.add_amount_unit_name).isNone then some CompileErr.undefined_unit
          else some CompileErr.missing_correction
      | none =>
          if d.div_corrections.any (fun c => !(d.div_defs.any (fun dd => dd.1 = c.2))) then
            some CompileErr.unknown_correction_label
          else none

/-- The RepeatingDivision validation of compile (main.py 684-686). -/
def rep_check (sys : SysDef) (r : RepeatingDivision) : Option CompileErr :=
  if sys.units.any (fun u => u.name = r.name_of_unit_in) then none
  else some CompileErr.undefined_unit_in

/-- The exception-lineage validation of compile (main.py 695-702): the
add-amount unit must lie on the strict ancestor chain of the interval
unit. -/
def exception_lineage_check (sys : SysDef) (e : TimeException) : Option CompileErr :=
  match find_unit sys e.interval_amount_unit_name with
  | none => some CompileErr.undefined_unit
  | some iu =>
    if (find_unit sys e.add_amount_unit_name).isNone then some CompileErr.undefined_unit
    else if (strict_ancestors sys (sys.units.length + 1) iu.parent_unit_name).contains
        e.add_amount_unit_name then none
    else some CompileErr.bad_exception_lineage

/-- The observable state after a `compile()` call: the raised error (if
any), the `_compiled` flag, and the by-name unit table with the working
factors currently stored on the unit objects. -/
structure CompileOut where
  err : Option CompileErr
  compiled : Bool
  table : List (String × CUnit)
deriving DecidableEq

/-- `TimeSystem.compile` (main.py 605-750), phase by phase and in source
order.  Crucially, `self._compiled = True` is executed at line 654, *before*
the division/repeating-division checks, before working factors are reset to
nominal (lines 692-693), and before the exception-lineage check (line 702):
a failure in those later phases leaves the flag set.  A failure at or after
line 692 additionally leaves the freshly committed nominal working factors
on the unit objects.  (On failures in the phases before line 654 the source
leaves the partially rebuilt dictionaries and wiped parent links behind;
the table is modelled as unusable — empty — there, which no claim in this
development inspects.) -/
def compile (sys : SysDef) (prior_flag : Bool) : CompileOut :=
  if has_dup (sys.units.map (fun u => u.name)) then
    ⟨some CompileErr.dup_unit_name, prior_flag, []⟩
  else if has_dup (sys.exceptions.map (fun e => e.name)) then
    ⟨some CompileErr.dup_exception_name, prior_flag, []⟩
  else if has_dup (sys.repeating_divs.map (fun r => r.name)) then
    ⟨some CompileErr.dup_repeating_name, prior_flag, []⟩
  else if has_dup (sys.exact_divs.map (fun d => d.name)) then
    ⟨some CompileErr.dup_exact_name, prior_flag, []⟩
  else
    match hierarchy_err sys with
    | some e => ⟨some e, prior_flag, []⟩
    | none =>
      match sys.exact_divs.findSome? (div_check sys) with
      | some e => ⟨some e, true, []⟩
      | none =>
        match sys.repeating_divs.findSome? (rep_check sys) with
        | some e => ⟨some e, true, []⟩
        | none =>
          match sys.exceptions.findSome? (exception_lineage_check sys) with
          | some e => ⟨some e, true, nominal_table sys⟩
          | none => ⟨none, true, walkTable sys⟩

/-!
## The Gregorian example system (main.py 1080-1120) and claim C3
-/

/-- The Gregorian unit/exception definitions at the point of the leap-cycle
assertion (main.py 1083-1120): Second base, Minute=60s, Hour=60m, Day=24h,
Year=365d, and the 4/100/400-year leap exceptions. -/
def gregDef : SysDef :=
  ⟨[⟨"Second", 1, none⟩, ⟨"Minute", 60, some "Second"⟩, ⟨"Hour", 60, some "Minute"⟩,
    ⟨"Day", 24, some "Hour"⟩, ⟨"Year", 365, some "Day"⟩],
   [⟨"Leap Day 4", 4, "Year", 1, "Day"⟩, ⟨"Leap Day 100", 100, "Year", -1, "Day"⟩,
    ⟨"Leap Day 400", 400, "Year", 1, "Day"⟩],
   [], []⟩

def gregMinute : CUnit := CUnit.sub CUnit.base 60
def gregHour : CUnit := CUnit.sub gregMinute 60
def gregDay : CUnit := CUnit.sub gregHour 24

/-- The compiled Year: working factor 365.2425 days, as derived by the
traversal from the three leap exceptions. -/
def gregYear : CUnit := CUnit.sub gregDay (146097 / 400)

/-- C3: compiling the Gregorian system derives the working factors that make
`to_base(Year, 1)` exactly 31556952 base seconds and `from_base(Year,
31556952)` exactly 1. -/
theorem C3_leap_cycle_exact :
    (compile gregDef false).err = none ∧
      (compile gregDef false).table.find? (fun p => p.1 = "Year") = some ("Year", gregYear) ∧
      to_base gregYear 1 = 31556952 ∧ from_base gregYear 31556952 = 1 := by
  refine ⟨?_, ?_, ?_, ?_⟩
  · norm_num +decide [compile, has_dup, hierarchy_err, gregDef, exception_lineage_check, find_unit,
      strict_ancestors, List.find?, List.findSome?]
  · norm_num +decide [compile, has_dup, hierarchy_err, gregDef, exception_lineage_check, find_unit,
      strict_ancestors, List.find?, List.findSome?, walkTable, children, walk, exc_sim,
      to_base, from_base, gregYear, gregDay, gregHour, gregMinute]
  · norm_num [to_base, gregYear, gregDay, gregHour, gregMinute]
  · norm_num [from_base, gregYear, gregDay, gregHour, gregMinute]

/-!
## Claim C2: the unit round trip can break on a degenerate compiled system
-/

/-- A system that compiles without error but whose derived working factor
for Year is 0: Year is nominally 2 Seconds, and an exception removes 2
Seconds from every Year. -/
def badInverseDef : SysDef :=
  ⟨[⟨"Second", 1, none⟩, ⟨"Year", 2, some "Second"⟩],
   [⟨"Collapse", 1, "Year", -2, "Second"⟩],
   [], []⟩

/-- Counterexample to C2 as stated: `badInverseDef` compiles successfully,
its Year receives working factor 0, and `from_base(Year, to_base(Year, 1))`
is 0, not 1.  (In Python the call raises ZeroDivisionError; under the
rational convention x / 0 = 0 used here the equation fails outright.
Either way the claimed identity does not hold for every compiled system.) -/
theorem C2_unit_inverse_counterexample :
    (compile badInverseDef false).err = none ∧
      (compile badInverseDef false).table.find? (fun p => p.1 = "Year") =
        some ("Year", CUnit.sub CUnit.base 0) ∧
      from_base (CUnit.sub CUnit.base 0) (to_base (CUnit.sub CUnit.base 0) 1) ≠ 1 := by
  refine ⟨?_, ?_, ?_⟩
  · norm_num +decide [compile, has_dup, hierarchy_err, badInverseDef, exception_lineage_check,
      find_unit, strict_ancestors, List.find?, List.findSome?]
  · norm_num +decide [compile, has_dup, hierarchy_err, badInverseDef, exception_lineage_check,
      find_unit, strict_ancestors, List.find?, List.findSome?, walkTable, children, walk,
      exc_sim, to_base, from_base]
  · norm_num [to_base, from_base]

/-!
## Claim C6: compile is not atomic
-/

/-- A system whose only invariant violation is an exception whose add-unit
is not on the strict ancestor chain of its interval unit ("every 1 Year add
1 Year"), detected by compile at main.py line 702 — after the flag was set
at line 654 and after the working factors were reset to nominal at lines
692-693. -/
def badLineageDef : SysDef :=
  ⟨[⟨"Second", 1, none⟩, ⟨"Year", 2, some "Second"⟩],
   [⟨"Bad", 1, "Year", 1, "Year"⟩],
   [], []⟩

/-- Counterexample to C6 as stated: compile on `badLineageDef` aborts with a
DefinitionError, yet afterwards the system *does* report itself compiled
(the flag is true) and the nominal working factors *have* been committed to
the unit objects.  The claimed "no partially-compiled state is observable"
fails. -/
theorem C6_compile_atomicity_counterexample :
    (compile badLineageDef false).err = some CompileErr.bad_exception_lineage ∧
      (compile badLineageDef false).compiled = true ∧
      (compile badLineageDef false).table =
        [("Second", CUnit.base), ("Year", CUnit.sub CUnit.base 2)] := by
  refine ⟨?_, ?_, ?_⟩ <;>
    norm_num +decide [compile, has_dup, hierarchy_err, badLineageDef, exception_lineage_check,
      find_unit, strict_ancestors, List.find?, List.findSome?, nominal_table, build_cunit]

/-- C6 (amended): every violated invariant still aborts compile with an
error, but the abort is not atomic.  Whenever the duplicate-name and
hierarchy phases pass and a violation is detected in the exception-lineage
check, the call errors with the `_compiled` flag already set to true and
with every unit's working factor freshly reset to its nominal factor. -/
theorem C6_compile_errors_amended (sys : SysDef) (prior : Bool) (e : CompileErr)
    (h1 : has_dup (sys.units.map (fun u => u.name)) = false)
    (h2 : has_dup (sys.exceptions.map (fun x => x.name)) = false)
    (h3 : has_dup (sys.repeating_divs.map (fun r => r.name)) = false)
    (h4 : has_dup (sys.exact_divs.map (fun d => d.name)) = false)
    (h5 : hierarchy_err sys = none)
    (h6 : sys.exact_divs.findSome? (div_check sys) = none)
    (h7 : sys.repeating_divs.findSome? (rep_check sys) = none)
    (h8 : sys.exceptions.findSome? (exception_lineage_check sys) = some e) :
    compile sys prior = ⟨some e, true, nominal_table sys⟩ := by
  simp [compile, h1, h2, h3, h4, h5, h6, h7, h8]

/-- Witness for C6 (amended) at `badLineageDef`. -/
theorem C6_compile_errors_witness :
    (has_dup (badLineageDef.units.map (fun u => u.name)) = false ∧
      hierarchy_err badLineageDef = none ∧
      badLineageDef.exceptions.findSome? (exception_lineage_check badLineageDef) =
        some CompileErr.bad_exception_lineage) ∧
    compile badLineageDef false =
      ⟨some CompileErr.bad_exception_lineage, true, nominal_table badLineageDef⟩ := by
  refine ⟨⟨?_, ?_, ?_⟩, ?_⟩
  · decide
  · decide
  · norm_num +decide [badLineageDef, exception_lineage_check, find_unit, strict_ancestors,
      List.find?, List.findSome?]
  · exact C6_compile_errors_amended badLineageDef false CompileErr.bad_exception_lineage
      (by decide) (by decide) (by decide) (by decide) (by decide)
      (by decide)
      (by decide)
      (by norm_num +decide [badLineageDef, exception_lineage_check, find_unit, strict_ancestors,
        List.find?, List.findSome?])

/-!
## Claim C9: the add/compile/convert lifecycle

The call-sequence machine below models the shared mutable TimeSystem state:
the definition lists, the `_compiled` flag, and the by-name unit table with
the working factors stored on the unit objects.  `lastGood` is a ghost
field recording the definitions at the most recent *successful* compile,
used only to state the claim.
-/

/-- The public operations of the lifecycle claim. -/
inductive Op where
  | add_unit (name : String) (factor : ℚ) (parent : Option String) : Op
  | add_exception (e : TimeException) : Op
  | add_exact_division (d : ExactDivision) : Op
  | add_repeating_division (r : RepeatingDivision) : Op
  | compile_call : Op
  | unit_to_base_unit (x : ℚ) (unit_name : String) : Op

/-- The observable TimeSystem state between calls. -/
structure MState where
  defs : SysDef
  flag : Bool
  table : List (String × CUnit)
  lastGood : Option SysDef

/-- The freshly constructed TimeSystem (main.py 126-134). -/
def initState : MState := ⟨⟨[], [], [], []⟩, false, [], none⟩

/-- What a conversion call observed: the definitions present, the ghost
last-successful-compile definitions, and the returned value or error. -/
structure ConvRec where
  defsAt : SysDef
  lastGoodAt : Option SysDef
  result : Except CompileErr ℚ

/-- One call.  The add-operations append and reset the flag (main.py
563-603; `add_unit` first asserts name freshness and factor positivity, in
which case the state is unchanged).  `compile_call` runs compile.
`unit_to_base_unit` (main.py 547-553) first runs `_check_compiled` and then
resolves the unit and converts. -/
def stepOp (st : MState) : Op → MState × Option ConvRec × Bool
  | .add_unit n f p =>
      if st.defs.units.any (fun u => u.name = n) ∨ ¬(0 < f) then (st, none, true)
      else
        (⟨⟨st.defs.units ++ [⟨n, f, p⟩], st.defs.exceptions, st.defs.exact_divs,
            st.defs.repeating_divs⟩, false, st.table, st.lastGood⟩, none, true)
  | .add_exception e =>
      if ¬(0 < e.interval_amount) then (st, none, true)
      else
        (⟨⟨st.defs.units, st.defs.exceptions ++ [e], st.defs.exact_divs,
            st.defs.repeating_divs⟩, false, st.table, st.lastGood⟩, none, true)
  | .add_exact_division d =>
      (⟨⟨st.defs.units, st.defs.exceptions, st.defs.exact_divs ++ [d],
          st.defs.repeating_divs⟩, false, st.table, st.lastGood⟩, none, true)
  | .add_repeating_division r =>
      (⟨⟨st.defs.units, st.defs.exceptions, st.defs.exact_divs,
          st.defs.repeating_divs ++ [r]⟩, false, st.table, st.lastGood⟩, none, true)
  | .compile_call =>
      let out := compile st.defs st.flag
      (⟨st.defs, out.compiled, out.table,
          if out.err.isNone then some st.defs else st.lastGood⟩, none, out.err.isNone)
  | .unit_to_base_unit x n =>
      if st.flag then
        match st.table.find? (fun p => p.1 = n) with
        | some p => (st, some ⟨st.defs, st.lastGood, Except.ok (to_base p.2 x)⟩, true)
        | none => (st, some ⟨st.defs, st.lastGood, Except.error CompileErr.undefined_unit⟩, true)
      else (st, some ⟨st.defs, st.lastGood, Except.error CompileErr.undefined_unit⟩, true)

/-- Run a call sequence, collecting the conversion records and whether every
compile call in the sequence succeeded. -/
def run (st : MState) : List Op → MState × List ConvRec × Bool
  | [] => (st, [], true)
  | op :: ops =>
    let (st1, rec?, ok1) := stepOp st op
    let (st2, recs, ok2) := run st1 ops
    (st2, rec?.toList ++ recs, ok1 && ok2)

/-- The lifecycle invariant: whenever the flag is set, the current
definitions are exactly those of the last successful compile. -/
def LifecycleInv (st : MState) : Prop :=
  st.flag = true → st.lastGood = some st.defs

theorem stepOp_preserves_inv (st : MState) (op : Op)
    (hinv : LifecycleInv st) (hok : (stepOp st op).2.2 = true) :
    LifecycleInv (stepOp st op).1 := by
  cases op with
  | add_unit n f p =>
      simp only [stepOp]
      split
      · exact hinv
      · intro hflag
        simp at hflag
  | add_exception e =>
      simp only [stepOp]
      split
      · exact hinv
      · intro hflag
        simp at hflag
  | add_exact_division d =>
      intro hflag
      simp [stepOp] at hflag
  | add_repeating_division r =>
      intro hflag
      simp [stepOp] at hflag
  | compile_call =>
      intro hflag
      simp only [stepOp] at hok hflag ⊢
      simp [hok]
  | unit_to_base_unit x n =>
      simp only [stepOp]
      split
      · split
        · exact hinv
        · exact hinv
      · exact hinv

theorem stepOp_record_sound (st : MState) (op : Op) (hinv : LifecycleInv st)
    (r : ConvRec) (hr : (stepOp st op).2.1 = some r) (hok : r.result.isOk = true) :
    r.lastGoodAt = some r.defsAt := by
  cases op with
  | add_unit n f p =>
      simp only [stepOp] at hr
      split at hr <;> simp at hr
  | add_exception e =>
      simp only [stepOp] at hr
      split at hr <;> simp at hr
  | add_exact_division d => simp [stepOp] at hr
  | add_repeating_division r2 => simp [stepOp] at hr
  | compile_call => simp [stepOp] at hr
  | unit_to_base_unit x n =>
      simp only [stepOp] at hr
      split at hr
      case isTrue hf =>
        split at hr
        · simp only [Option.some.injEq] at hr
          subst hr
          simpa using hinv hf
        · simp only [Option.some.injEq] at hr
          subst hr
          simp [Except.isOk, Except.toBool] at hok
      case isFalse hf =>
        simp only [Option.some.injEq] at hr
        subst hr
        simp [Except.isOk, Except.toBool] at hok

theorem run_records_sound (ops : List Op) (st : MState) (hinv : LifecycleInv st)
    (hok : (run st ops).2.2 = true) (r : ConvRec) (hr : r ∈ (run st ops).2.1)
    (hres : r.result.isOk = true) : r.lastGoodAt = some r.defsAt := by
  induction ops generalizing st with
  | nil => simp [run] at hr
  | cons op rest ih =>
      have hok1 : (stepOp st op).2.2 = true ∧ (run (stepOp st op).1 rest).2.2 = true := by
        have := hok
        simp only [run] at this
        exact Bool.and_eq_true_iff.mp this
      have hmem : r ∈ (stepOp st op).2.1.toList ∨ r ∈ (run (stepOp st op).1 rest).2.1 := by
        have := hr
        simp only [run, List.mem_append] at this
        exact this
      rcases hmem with hmem | hmem
      · cases hrec : (stepOp st op).2.1 with
        | none => simp [hrec] at hmem
        | some rr =>
            have : r = rr := by simpa [hrec] using hmem
            subst this
            exact stepOp_record_sound st op hinv r hrec hres
      · exact ih (stepOp st op).1 (stepOp_preserves_inv st op hinv hok1.1) hok1.2 hmem

/-- C9 (amended): every structural add-operation resets the compiled flag
and every conversion requires it; consequently, in any call sequence in
which *every compile succeeds*, a successful conversion only ever reads the
definitions of the most recent successful compile.  (The proviso is forced:
a failed compile can leave the flag set, see the counterexample.) -/
theorem C9_lifecycle_amended (ops : List Op)
    (hok : (run initState ops).2.2 = true) (r : ConvRec)
    (hr : r ∈ (run initState ops).2.1) (hres : r.result.isOk = true) :
    r.lastGoodAt = some r.defsAt := by
  refine run_records_sound ops initState ?_ hok r hr hres
  intro h
  simp [initState] at h

/-- The definitions at the first (successful) compile of the counterexample
sequence: only the base unit Second. -/
def secondOnlyDef : SysDef := ⟨[⟨"Second", 1, none⟩], [], [], []⟩

/-- The counterexample call sequence: compile successfully with only Second;
then add Year and a lineage-violating exception; compile again (which fails
at main.py line 702 — but only after `_compiled = True` at line 654 and the
nominal working-factor reset at lines 692-693); then convert 1 Year. -/
def opsBad : List Op :=
  [Op.add_unit "Second" 1 none,
   Op.compile_call,
   Op.add_unit "Year" 2 (some "Second"),
   Op.add_exception ⟨"Bad", 1, "Year", 1, "Year"⟩,
   Op.compile_call,
   Op.unit_to_base_unit 1 "Year"]

/-- Counterexample to C9 as stated: in the sequence `opsBad` the final
conversion succeeds (returning 2) and reads the unit "Year", even though
"Year" was added *after* the most recent successful compile (whose
definitions, recorded in `lastGoodAt`, contain only "Second").  The failed
second compile left the flag set, so `_check_compiled` passed. -/
theorem C9_lifecycle_counterexample :
    (run initState opsBad).2.1 =
      [⟨badLineageDef, some secondOnlyDef, Except.ok 2⟩] ∧
      secondOnlyDef.units.any (fun u => u.name = "Year") = false ∧
      badLineageDef.units.any (fun u => u.name = "Year") = true := by
  refine ⟨?_, by decide, by decide⟩
  norm_num +decide [run, stepOp, initState, opsBad, compile, has_dup, hierarchy_err,
    exception_lineage_check, find_unit, strict_ancestors, List.find?, List.findSome?,
    nominal_table, build_cunit, walkTable, children, walk, exc_sim, to_base, from_base,
    badLineageDef, secondOnlyDef]

/-- An all-compiles-succeed sequence for the C9 witness. -/
def opsGood : List Op :=
  [Op.add_unit "Second" 1 none, Op.compile_call, Op.unit_to_base_unit 5 "Second"]

/-- Witness for C9 (amended) on the sequence `opsGood`. -/
theorem C9_lifecycle_witness :
    ((run initState opsGood).2.2 = true ∧
        (⟨secondOnlyDef, some secondOnlyDef, Except.ok 5⟩ : ConvRec) ∈
          (run initState opsGood).2.1 ∧
        (Except.ok (5 : ℚ) : Except CompileErr ℚ).isOk = true) ∧
      (some secondOnlyDef : Option SysDef) = some secondOnlyDef := by
  have h1 : (run initState opsGood).2.2 = true := by
    norm_num +decide [run, stepOp, initState, opsGood, compile, has_dup, hierarchy_err,
      List.findSome?, walkTable, children, walk, secondOnlyDef]
  have h2 : (run initState opsGood).2.1 =
      [⟨secondOnlyDef, some secondOnlyDef, Except.ok 5⟩] := by
    norm_num +decide [run, stepOp, initState, opsGood, compile, has_dup, hierarchy_err,
      List.findSome?, walkTable, children, walk, exc_sim, to_base, from_base, find_unit,
      List.find?, secondOnlyDef]
  have h3 : (⟨secondOnlyDef, some secondOnlyDef, Except.ok 5⟩ : ConvRec) ∈
      (run initState opsGood).2.1 := by
    rw [h2]
    exact List.mem_singleton.mpr rfl
  exact ⟨⟨h1, h3, rfl⟩,
    C9_lifecycle_amended opsGood h1 ⟨secondOnlyDef, some secondOnlyDef, Except.ok 5⟩ h3 rfl⟩

/-!
## split_inclusive (main.py 42-73) and claim C10

`re.finditer` yields an ordered list of non-overlapping match spans
`(start, end)` within the string; `split_inclusive` walks them with a
running `curr_index`.  The function is embedded over that span list (the
regex engine itself is not modelled; its output contract — ordered,
non-overlapping, in-bounds spans — is the `valid_ms0` hypothesis).
-/

/-- Python slicing `string[i:j]` on a character list. -/
def str_slice (s : List Char) (i j : ℕ) : List Char := (s.drop i).take (j - i)

/-- The finditer loop of split_inclusive (main.py 54-68): for each match
span emit the text between `curr_index` and the match when nonempty, then
the match itself; after the last match emit any remaining tail. -/
def split_inclusive_from (s : List Char) : ℕ → List (ℕ × ℕ) → List (List Char)
  | curr, [] => if curr < s.length then [str_slice s curr s.length] else []
  | curr, (st, en) :: ms =>
      (if curr < st then [str_slice s curr st] else []) ++
        (str_slice s st en :: split_inclusive_from s en ms)

/-- `split_inclusive` (main.py 42-73): if the pattern never matched (`ran`
stays false) the whole string is the single token, else the loop output. -/
def split_inclusive (ms0 : List (ℕ × ℕ)) (s : List Char) : List (List Char) :=
  if ms0 = [] then [s] else split_inclusive_from s 0 ms0

/-- The contract of a finditer match-span list seen from position `curr`:
spans are ordered, non-overlapping, and within the string. -/
def valid_ms0 (len : ℕ) : ℕ → List (ℕ × ℕ) → Prop
  | _, [] => True
  | curr, (st, en) :: ms => curr ≤ st ∧ st ≤ en ∧ en ≤ len ∧ valid_ms0 len en ms

theorem str_slice_append (s : List Char) (i j k : ℕ) (hij : i ≤ j) (hjk : j ≤ k) :
    str_slice s i j ++ str_slice s j k = str_slice s i k := by
  unfold str_slice
  have h1 : k - i = (j - i) + (k - j) := by omega
  rw [h1, List.take_add]
  have hd : (s.drop i).drop (j - i) = s.drop j := by
    rw [List.drop_drop]
    have hji : i + (j - i) = j := by omega
    rw [hji]
  rw [hd]

theorem split_inclusive_from_flatten (s : List Char) (ms : List (ℕ × ℕ)) :
    ∀ curr, valid_ms0 s.length curr ms → curr ≤ s.length →
      (split_inclusive_from s curr ms).flatten = str_slice s curr s.length := by
  induction ms with
  | nil =>
      intro curr _ hle
      by_cases h : curr < s.length
      · simp [split_inclusive_from, h]
      · have hc : curr = s.length := by omega
        subst hc
        simp [split_inclusive_from, str_slice]
  | cons m rest ih =>
      obtain ⟨st, en⟩ := m
      intro curr hv hle
      obtain ⟨h1, h2, h3, hv2⟩ := hv
      have hjoin := ih en hv2 h3
      by_cases h : curr < st
      · simp only [split_inclusive_from, if_pos h, List.flatten_append, List.flatten_cons,
          List.singleton_append, List.flatten]
        rw [hjoin, str_slice_append s st en s.length h2 h3,
          str_slice_append s curr st s.length h1 (le_trans h2 h3)]
      · have hc : curr = st := by omega
        subst hc
        simp only [split_inclusive_from, if_neg h, List.nil_append, List.flatten_cons]
        rw [hjoin, str_slice_append s curr en s.length h2 h3]

/-- C10: for every input string and every ordered, non-overlapping,
in-bounds match-span list (the contract of re.finditer for any pattern),
the token list returned by split_inclusive is non-empty and concatenating
its elements in order reproduces the input string exactly. -/
theorem C10_split_inclusive_lossless (s : List Char) (ms0 : List (ℕ × ℕ))
    (hv : valid_ms0 s.length 0 ms0) :
    split_inclusive ms0 s ≠ [] ∧ (split_inclusive ms0 s).flatten = s := by
  constructor
  · unfold split_inclusive
    split
    · simp
    · match ms0 with
      | [] => simp_all
      | (st, en) :: ms =>
          simp [split_inclusive_from]
  · unfold split_inclusive
    split
    · simp
    · rw [split_inclusive_from_flatten s ms0 0 hv (Nat.zero_le _)]
      simp [str_slice]

/-- Witness for C10: the string ":Day:" split with the single match span
(1, 4), i.e. the identifier "Day". -/
theorem C10_split_inclusive_witness :
    valid_ms0 (":Day:".toList.length) 0 [(1, 4)] ∧
      (split_inclusive [(1, 4)] ":Day:".toList ≠ [] ∧
        (split_inclusive [(1, 4)] ":Day:".toList).flatten = ":Day:".toList) :=
  ⟨by simp [valid_ms0],
    C10_split_inclusive_lossless ":Day:".toList [(1, 4)] (by simp [valid_ms0])⟩

/-!
## Numerals: Python str(int), int(...), Decimal(...) on tokens

The value string is split by the numeral pattern `[0-9]+\.{0,1}[0-9]*`;
identifier substitution uses `str(value)` on Python ints.  These are
modelled below; Decimal input forms that can never reach the converters
(exponents, NaN, infinities) are not modelled.
-/

/-- The decimal digit characters produced by Python `str` on an int. -/
def digitChar : ℕ → Char
  | 0 => '0'
  | 1 => '1'
  | 2 => '2'
  | 3 => '3'
  | 4 => '4'
  | 5 => '5'
  | 6 => '6'
  | 7 => '7'
  | 8 => '8'
  | _ => '9'

/-- Decimal digit value of a character, none for non-digits. -/
def digitVal : Char → Option ℕ
  | '9' => some 9
  | '8' => some 8
  | '7' => some 7
  | '6' => some 6
  | '5' => some 5
  | '4' => some 4
  | '3' => some 3
  | '2' => some 2
  | '1' => some 1
  | '0' => some 0
  | _ => none

/-- The digit characters of a positive natural, most significant first. -/
def natChars (n : ℕ) : List Char := (Nat.digits 10 n).reverse.map digitChar

/-- Python `str` on a nonnegative int. -/
def printNat (n : ℕ) : String := if n = 0 then "0" else String.mk (natChars n)

/-- Python `str` on an int. -/
def printInt (i : ℤ) : String :=
  if i < 0 then "-" ++ printNat i.natAbs else printNat i.toNat

/-- Accumulating digit parse; fails on any non-digit character. -/
def parse_digits_from (a : ℕ) : List Char → Option ℕ
  | [] => some a
  | c :: rest =>
    match digitVal c with
    | some d => parse_digits_from (10 * a + d) rest
    | none => none

/-- Python `int(...)` on a token string: optional sign, then digits only
(a fractional part makes it raise). -/
def parseInt (s : String) : Option ℤ :=
  match s.toList with
  | [] => none
  | c :: rest =>
    if c = '-' then
      if rest.isEmpty then none else (parse_digits_from 0 rest).map (fun n => -(n : ℤ))
    else if c = '+' then
      if rest.isEmpty then none else (parse_digits_from 0 rest).map (fun n => (n : ℤ))
    else (parse_digits_from 0 (c :: rest)).map (fun n => (n : ℤ))

/-- Unsigned `Decimal(...)` body: digits with at most one dot, at least one
digit somewhere. -/
def parse_decimal_chars (l : List Char) : Option ℚ :=
  let ip := l.takeWhile (fun c => c ≠ '.')
  match l.dropWhile (fun c => c ≠ '.') with
  | [] =>
      if ip.isEmpty then none
      else (parse_digits_from 0 ip).map (fun n => (n : ℚ))
  | _ :: frac =>
      if ip.isEmpty && frac.isEmpty then none
      else
        match parse_digits_from 0 ip, parse_digits_from 0 frac with
        | some n, some f => some ((n : ℚ) + (f : ℚ) / (10 : ℚ) ^ frac.length)
        | _, _ => none

/-- Python `Decimal(...)` on a token string. -/
def parseDecimal (s : String) : Option ℚ :=
  match s.toList with
  | [] => none
  | c :: rest =>
    if c = '-' then (parse_decimal_chars rest).map (fun q => -q)
    else if c = '+' then parse_decimal_chars rest
    else parse_decimal_chars (c :: rest)

theorem digitVal_digitChar {d : ℕ} (hd : d < 10) : digitVal (digitChar d) = some d := by
  interval_cases d <;> rfl

theorem digitChar_ne_dot {d : ℕ} (hd : d < 10) : digitChar d ≠ '.' := by
  interval_cases d <;> decide

theorem digitChar_ne_dash {d : ℕ} (hd : d < 10) : digitChar d ≠ '-' := by
  interval_cases d <;> decide

theorem digitChar_ne_plus {d : ℕ} (hd : d < 10) : digitChar d ≠ '+' := by
  interval_cases d <;> decide

theorem parse_digits_from_map (ds : List ℕ) (hds : ∀ d ∈ ds, d < 10) :
    ∀ a, parse_digits_from a (ds.map digitChar) = some (ds.foldl (fun x d => 10 * x + d) a) := by
  induction ds with
  | nil => intro a; rfl
  | cons d rest ih =>
      intro a
      have hd : d < 10 := hds d (by simp)
      simp only [List.map_cons, parse_digits_from, digitVal_digitChar hd, List.foldl_cons]
      exact ih (fun x hx => hds x (by simp [hx])) (10 * a + d)

theorem foldl_digits_reverse (l : List ℕ) :
    ∀ a, l.reverse.foldl (fun x d => 10 * x + d) a = a * 10 ^ l.length + Nat.ofDigits 10 l := by
  induction l with
  | nil => intro a; simp [Nat.ofDigits]
  | cons d rest ih =>
      intro a
      simp only [List.reverse_cons, List.foldl_append, List.foldl_cons, List.foldl_nil]
      rw [ih a, Nat.ofDigits_cons, List.length_cons, pow_succ]
      ring

theorem parse_digits_from_natChars (n : ℕ) : parse_digits_from 0 (natChars n) = some n := by
  unfold natChars
  have hlt : ∀ d ∈ (Nat.digits 10 n).reverse, d < 10 := by
    intro d hd
    exact Nat.digits_lt_base (by norm_num) (List.mem_reverse.mp hd)
  rw [parse_digits_from_map (Nat.digits 10 n).reverse hlt 0, foldl_digits_reverse]
  simp [Nat.ofDigits_digits]

theorem natChars_all_digits (n : ℕ) :
    ∀ c ∈ natChars n, ∃ d, d < 10 ∧ c = digitChar d := by
  intro c hc
  unfold natChars at hc
  obtain ⟨d, hd, rfl⟩ := List.mem_map.mp hc
  exact ⟨d, Nat.digits_lt_base (by norm_num) (List.mem_reverse.mp hd), rfl⟩

theorem parse_decimal_chars_natChars (n : ℕ) (hn : n ≠ 0) :
    parse_decimal_chars (natChars n) = some (n : ℚ) := by
  have hnd : ∀ c ∈ natChars n, (fun c => decide (c ≠ '.')) c = true := by
    intro c hc
    obtain ⟨d, hd, rfl⟩ := natChars_all_digits n c hc
    simpa using digitChar_ne_dot hd
  have htake : (natChars n).takeWhile (fun c => decide (c ≠ '.')) = natChars n :=
    List.takeWhile_eq_self_iff.mpr hnd
  have hdrop : (natChars n).dropWhile (fun c => decide (c ≠ '.')) = [] :=
    List.dropWhile_eq_nil_iff.mpr hnd
  have hne : (natChars n).isEmpty = false := by
    unfold natChars
    have : Nat.digits 10 n ≠ [] := Nat.digits_ne_nil_iff_ne_zero.mpr hn
    simp [List.isEmpty_iff, this]
  unfold parse_decimal_chars
  rw [hdrop]
  simp only [htake, hne, Bool.false_eq_true, if_false, parse_digits_from_natChars]
  rfl

theorem parseDecimal_printNat (n : ℕ) : parseDecimal (printNat n) = some (n : ℚ) := by
  by_cases hn : n = 0
  · subst hn
    rfl
  · unfold printNat
    rw [if_neg hn]
    have hlist : (String.mk (natChars n)).toList = natChars n := rfl
    have hne : natChars n ≠ [] := by
      unfold natChars
      have : Nat.digits 10 n ≠ [] := Nat.digits_ne_nil_iff_ne_zero.mpr hn
      simp [this]
    obtain ⟨c, rest, hcr⟩ : ∃ c rest, natChars n = c :: rest := by
      cases h : natChars n with
      | nil => exact absurd h hne
      | cons c rest => exact ⟨c, rest, rfl⟩
    obtain ⟨d, hd, hc⟩ := natChars_all_digits n c (by rw [hcr]; simp)
    unfold parseDecimal
    rw [hlist, hcr]
    have h1 : c ≠ '-' := by rw [hc]; exact digitChar_ne_dash hd
    have h2 : c ≠ '+' := by rw [hc]; exact digitChar_ne_plus hd
    simp only [h1, h2, if_false]
    rw [← hcr, parse_decimal_chars_natChars n hn]

theorem parseDecimal_printInt_nonneg (i : ℤ) (hi : 0 ≤ i) :
    parseDecimal (printInt i) = some (i : ℚ) := by
  unfold printInt
  rw [if_neg (not_lt.mpr hi), parseDecimal_printNat]
  congr 1
  exact_mod_cast Int.toNat_of_nonneg hi

/-!
## The compiled-system view and the converters (main.py 139-540, 818-876)

The converters are embedded at the token level: they consume the token
lists that `_split_date_format` (the name regex) and the numeric
`split_inclusive` call produce from the template and value strings.
-/

/-- Runtime failure tags for the converter methods. -/
inductive PyError where
  | format_mismatch : PyError
  | consistency : PyError
  | invalid_operation : PyError
  | int_parse : PyError
  | type_error : PyError
  | attribute_error : PyError
  | index_error : PyError
  | lookup_error : PyError
  | zero_division : PyError
deriving DecidableEq

/-- The compiled system as the converters see it: the by-name unit table
produced by compile, plus the exception and division lists. -/
structure CompiledSys where
  units : List (String × CUnit)
  exceptions : List TimeException
  exact_divs : List ExactDivision
  repeating_divs : List RepeatingDivision

def lookup_unit (cs : CompiledSys) (n : String) : Option CUnit :=
  (cs.units.find? (fun p => p.1 = n)).map (fun p => p.2)

def find_exact_div (cs : CompiledSys) (n : String) : Option ExactDivision :=
  cs.exact_divs.find? (fun d => d.name = n)

def find_repeating_div (cs : CompiledSys) (n : String) : Option RepeatingDivision :=
  cs.repeating_divs.find? (fun d => d.name = n)

def find_exception (cs : CompiledSys) (n : String) : Option TimeException :=
  cs.exceptions.find? (fun e => e.name = n)

/-- The compiled view of a definition set. -/
def mkCompiled (sys : SysDef) : CompiledSys :=
  ⟨(compile sys false).table, sys.exceptions, sys.exact_divs, sys.repeating_divs⟩

/-- Add `amt` to the offset of every subdivision labelled `lbl` (main.py
847-849). -/
def add_offsets_at (defs : List (String × ℤ)) (offs : List ℚ) (lbl : String) (amt : ℚ) :
    List ℚ :=
  (defs.zip offs).map (fun p => if p.1.1 = lbl then p.2 + amt else p.2)

/-- The correction loop of `_get_exact_div_offsets` (main.py 836-849): for
each correction resolve its exception, test `int(interval_unit.from_base
(date)) % int(interval_amount) == 0` (exact, not amortized), and if active
add `add_unit.to_base(add_amount)` to the named label's offset.  (Lean's
`%` on Int is Euclidean; for the positive interval amounts the constructor
enforces, it agrees with Python's floored `%`, and equality to 0 agrees for
every nonzero modulus.) -/
def apply_corrections (cs : CompiledSys) (date : ℚ) (defs : List (String × ℤ)) :
    List (String × String) → List ℚ → Except PyError (List ℚ)
  | [], offs => Except.ok offs
  | c :: rest, offs =>
    match find_exception cs c.1 with
    | none => Except.error PyError.lookup_error
    | some exc =>
      match lookup_unit cs exc.interval_amount_unit_name with
      | none => Except.error PyError.lookup_error
      | some iu =>
        let ia := qtrunc exc.interval_amount
        if ia = 0 then Except.error PyError.zero_division
        else if qtrunc (from_base iu date) % ia = 0 then
          match lookup_unit cs exc.add_amount_unit_name with
          | none => Except.error PyError.lookup_error
          | some au =>
              apply_corrections cs date defs rest
                (add_offsets_at defs offs c.2 (to_base au exc.add_amount))
        else apply_corrections cs date defs rest offs

/-- `_get_exact_div_offsets` (main.py 818-851): the base offsets
`to_base(dividing_into, count_i)` in subdivision order, then the active
corrections for the given date. -/
def get_exact_div_offsets (cs : CompiledSys) (date : ℚ) (div : ExactDivision) :
    Except PyError (List ℚ) :=
  match lookup_unit cs div.name_of_unit_dividing_into with
  | none => Except.error PyError.lookup_error
  | some into =>
      apply_corrections cs date div.div_defs div.div_corrections
        (div.div_defs.map (fun d => to_base into (d.2 : ℚ)))

/-- The reference-collection loop of base_to_format (main.py 181-201):
classify each token as unit / exact division / repeating division in that
elif order, deduplicating while keeping first-appearance order. -/
structure UsedRefs where
  used_units : List (String × CUnit)
  used_exact_divs : List ExactDivision
  used_repeating_divs : List RepeatingDivision

def collect_refs (cs : CompiledSys) : List String → UsedRefs → UsedRefs
  | [], acc => acc
  | tok :: rest, acc =>
    match lookup_unit cs tok with
    | some c =>
        if acc.used_units.any (fun p => p.1 = tok) then collect_refs cs rest acc
        else collect_refs cs rest
          ⟨acc.used_units ++ [(tok, c)], acc.used_exact_divs, acc.used_repeating_divs⟩
    | none =>
      match find_exact_div cs tok with
      | some d =>
          if acc.used_exact_divs.any (fun x => x.name = tok) then collect_refs cs rest acc
          else collect_refs cs rest
            ⟨acc.used_units, acc.used_exact_divs ++ [d], acc.used_repeating_divs⟩
      | none =>
        match find_repeating_div cs tok with
        | some r =>
            if acc.used_repeating_divs.any (fun x => x.name = tok) then collect_refs cs rest acc
            else collect_refs cs rest
              ⟨acc.used_units, acc.used_exact_divs, acc.used_repeating_divs ++ [r]⟩
        | none => collect_refs cs rest acc

/-- Stable descending insertion by the `_sort_so_smallest_units_first` key
(the unit's *own* working conversion factor, main.py 755-761), matching
Python `sorted(..., reverse=True, key=...)`: descending, ties in original
order. -/
def insert_desc (a : String × CUnit) : List (String × CUnit) → List (String × CUnit)
  | [] => [a]
  | b :: bs =>
      if get_working_conversion_factor b.2 < get_working_conversion_factor a.2 then
        a :: b :: bs
      else b :: insert_desc a bs

def sort_desc (l : List (String × CUnit)) : List (String × CUnit) :=
  l.foldl (fun acc a => insert_desc a acc) []

/-- The unit-extraction loop of base_to_format (main.py 209-224): walk the
sorted units, take `remainder = curr % to_base(1)`, record
`int(from_base(curr - remainder))` (+1 afterwards when the unit is
one-based), and continue with the remainder. -/
def units_loop (ob : List String) : List (String × CUnit) → ℚ → List (String × ℤ)
  | [], _ => []
  | (n, c) :: rest, curr =>
    let rem := dmod curr (to_base c 1)
    let v := qtrunc (from_base c (curr - rem))
    (n, if ob.contains n then v + 1 else v) :: units_loop ob rest rem

def lookup_val (vals : List (String × ℤ)) (n : String) : Option ℤ :=
  (vals.find? (fun p => p.1 = n)).map (fun p => p.2)

def set_val (vals : List (String × ℤ)) (n : String) (v : ℤ) : List (String × ℤ) :=
  vals.map (fun p => if p.1 = n then (n, v) else p)

def lookup_val_q (vals : List (String × ℚ)) (n : String) : Option ℚ :=
  (vals.find? (fun p => p.1 = n)).map (fun p => p.2)

/-- The subdivision walk of base_to_format's ExactDivision section (main.py
235-255): subtract each (corrected) offset; at the first remainder ≤ 0, if
the division has no value yet, record the index (one-based if configured)
and reduce the dividing-into unit's already recorded value by
`int(from_base(total_offset))`. -/
def b2f_div_walk (divName intoName : String) (into : CUnit) (ob : Bool) :
    ℚ → List ℚ → ℤ → ℚ → List (String × ℤ) → List (String × ℤ)
  | _, [], _, _, vals => vals
  | rem, o :: os, i, tot, vals =>
    if rem - o ≤ 0 then
      if (lookup_val vals divName).isNone then
        let vals1 := vals ++ [(divName, if ob then i + 1 else i)]
        match lookup_val vals1 intoName with
        | some dv => set_val vals1 intoName (dv - qtrunc (from_base into tot))
        | none => vals1
      else vals
    else b2f_div_walk divName intoName into ob (rem - o) os (i + 1) (tot + o) vals

/-- One ExactDivision of base_to_format (main.py 228-255): offsets for the
(positive) date, then the walk over `date % dividing.to_base(1)`. -/
def b2f_exact_div (cs : CompiledSys) (t : ℚ) (ob : List String)
    (vals : List (String × ℤ)) (div : ExactDivision) :
    Except PyError (List (String × ℤ)) :=
  match get_exact_div_offsets cs t div with
  | Except.error e => Except.error e
  | Except.ok offs =>
    match lookup_unit cs div.name_of_unit_dividing,
        lookup_unit cs div.name_of_unit_dividing_into with
    | some dividing, some into =>
        Except.ok (b2f_div_walk div.name div.name_of_unit_dividing_into into
          (ob.contains div.name) (dmod t (to_base dividing 1)) offs 0 0 vals)
    | _, _ => Except.error PyError.lookup_error

def b2f_exact_divs (cs : CompiledSys) (t : ℚ) (ob : List String) :
    List ExactDivision → List (String × ℤ) → Except PyError (List (String × ℤ))
  | [], vals => Except.ok vals
  | d :: rest, vals =>
    match b2f_exact_div cs t ob vals d with
    | Except.error e => Except.error e
    | Except.ok vals1 => b2f_exact_divs cs t ob rest vals1

/-- `base_to_format` (main.py 139-304) at the token level, producing the
substituted token list (the returned string is their concatenation).
Sign convention (main.py 160-173): a negative date is negated, and the
negative template is used only when one was supplied — *no* negative marker
is prepended otherwise (unlike the earlier revision time_system.py 205-207,
which prepends "-").
The RepeatingDivision loop (main.py 258-278) iterates over *all* declared
repeating divisions and its first line, `unit_in.to_base(unit_in)` (line
262), passes the Unit object itself to to_base, so
`confirm_is_type_decimal` raises for every system that has any repeating
division; this is modelled as the type_error branch. -/
def base_to_format_tokens (cs : CompiledSys) (fmtToks : List String)
    (negToks : Option (List String)) (ob : List String) (t : ℚ) :
    Except PyError (List String) :=
  let t1 := if t < 0 then -t else t
  let toks := if t < 0 ∧ negToks.isSome then negToks.getD [] else fmtToks
  let used := collect_refs cs toks ⟨[], [], []⟩
  let vals0 := units_loop ob (sort_desc used.used_units) t1
  match b2f_exact_divs cs t1 ob used.used_exact_divs vals0 with
  | Except.error e => Except.error e
  | Except.ok vals =>
    match cs.repeating_divs with
    | [] => Except.ok (toks.map (fun tok =>
        match lookup_val vals tok with
        | some v => printInt v
        | none => tok))
    | _ :: _ => Except.error PyError.type_error

/-- `base_to_format` as the source returns it: the concatenation of the
substituted tokens (main.py 283-304). -/
def base_to_format (cs : CompiledSys) (fmtToks : List String)
    (negToks : Option (List String)) (ob : List String) (t : ℚ) :
    Except PyError String :=
  match base_to_format_tokens cs fmtToks negToks ob t with
  | Except.error e => Except.error e
  | Except.ok l => Except.ok (l.foldl (fun acc s => acc ++ s) "")

/-- `_check_formats_same` (main.py 853-876) at the token level: equal
length, and wherever the value token is not a Decimal numeral (nicknames
are not modelled) the delimiters must agree. -/
def check_formats_same (split_num other : List String) : Bool :=
  (split_num.length = other.length : Bool) &&
    (split_num.zip other).all (fun p => (parseDecimal p.1).isSome || p.1 = p.2)

/-- The per-token classification loop of format_to_base (main.py 380-431),
in the source's elif order: units (Decimal parse, one-based adjustment,
to_base, consistency check), then ExactDivisions (int parse), then
RepeatingDivisions (whose one-based branch computes `num_date_str - 1` on a
str, a TypeError, main.py 429). -/
structure ClassAcc where
  units_in_base : List (String × ℚ)
  units_used : List (String × CUnit)
  exact_used : List (String × ℤ)
  rep_used : List (String × ℤ)

def classify (cs : CompiledSys) (ob : List String) :
    List (String × String) → ClassAcc → Except PyError ClassAcc
  | [], acc => Except.ok acc
  | (ft, nt) :: rest, acc =>
    match lookup_unit cs ft with
    | some c =>
      let uu := if acc.units_used.any (fun p => p.1 = ft) then acc.units_used
                else acc.units_used ++ [(ft, c)]
      match parseDecimal nt with
      | none => Except.error PyError.invalid_operation
      | some q =>
        let contrib := to_base c (if ob.contains ft then q - 1 else q)
        match lookup_val_q acc.units_in_base ft with
        | some prev =>
            if prev = contrib then
              classify cs ob rest ⟨acc.units_in_base, uu, acc.exact_used, acc.rep_used⟩
            else Except.error PyError.consistency
        | none =>
            classify cs ob rest
              ⟨acc.units_in_base ++ [(ft, contrib)], uu, acc.exact_used, acc.rep_used⟩
    | none =>
      match find_exact_div cs ft with
      | some _ =>
        match parseInt nt with
        | none => Except.error PyError.int_parse
        | some i =>
            classify cs ob rest ⟨acc.units_in_base, acc.units_used,
              acc.exact_used ++ [(ft, if ob.contains ft then i - 1 else i)], acc.rep_used⟩
      | none =>
        match find_repeating_div cs ft with
        | some _ =>
            if ob.contains ft then Except.error PyError.type_error
            else
              match parseInt nt with
              | none => Except.error PyError.int_parse
              | some i =>
                  classify cs ob rest ⟨acc.units_in_base, acc.units_used, acc.exact_used,
                    acc.rep_used ++ [(ft, i)]⟩
        | none => classify cs ob rest acc

/-- The ExactDivision phase of format_to_base (main.py 441-463): one
accumulating `time_to_add` over all referenced divisions, with offsets
computed against the *provisional* unit total `date0` (the date is only
increased after the loop), and the dividing-into units appended to
units_used. -/
def f2b_exact_divs (cs : CompiledSys) (date0 : ℚ) :
    List (String × ℤ) → ℚ → List (String × CUnit) →
      Except PyError (ℚ × List (String × CUnit))
  | [], t_add, uu => Except.ok (t_add, uu)
  | (dn, idx) :: rest, t_add, uu =>
    match find_exact_div cs dn with
    | none => Except.error PyError.lookup_error
    | some div =>
      match lookup_unit cs div.name_of_unit_dividing_into with
      | none => Except.error PyError.lookup_error
      | some into =>
        let uu1 := if uu.any (fun p => p.1 = div.name_of_unit_dividing_into) then uu
                   else uu ++ [(div.name_of_unit_dividing_into, into)]
        match get_exact_div_offsets cs date0 div with
        | Except.error e => Except.error e
        | Except.ok offs =>
            f2b_exact_divs cs date0 rest
              (t_add + (offs.take idx.toNat).foldl (fun a b => a + b) 0) uu1

/-- `format_to_base` (main.py 306-540) at the token level.  `numToks` is
the numeric split of the value string, `fmtToks`/`negToks` the name splits
of the positive/negative templates.
Notes kept faithful to the source:
* literal delimiters are compared only inside `_check_formats_same`, i.e.
  only when a negative template is supplied; with none, only the
  token-count assert at line 376 guards the formats;
* every call that references a repeating division appends the unit-*name
  string* to units_used (line 509) and the subsequent sort (line 517) then
  raises AttributeError, modelled as the attribute_error branch (the
  alignment arithmetic itself is modelled as rep_div_align below);
* with no referenced unit at all, `units_used[-1]` (line 521) raises
  IndexError;
* the "coarser remainder" at lines 526-532 is computed but never used
  (dead code) and is not modelled;
* the result is `date_in_base_unit` itself — main.py has no final int()
  cast (the earlier revision time_system.py 361 truncates). -/
def format_to_base (cs : CompiledSys) (numToks fmtToks : List String)
    (negToks : Option (List String)) (original : ℚ) (ob : List String) :
    Except PyError ℚ :=
  let sel : Except PyError (List String × Bool) :=
    match negToks with
    | none => Except.ok (fmtToks, false)
    | some nt =>
      let hp := check_formats_same numToks fmtToks
      let hn := check_formats_same numToks nt
      if hp && hn then Except.error PyError.format_mismatch
      else if !hp && !hn then Except.error PyError.format_mismatch
      else if hp then Except.ok (fmtToks, false)
      else Except.ok (nt, true)
  match sel with
  | Except.error e => Except.error e
  | Except.ok (chosen, is_neg) =>
    if chosen.length = numToks.length then
      match classify cs ob (chosen.zip numToks) ⟨[], [], [], []⟩ with
      | Except.error e => Except.error e
      | Except.ok acc =>
        let date0 := (acc.units_in_base.map (fun p => p.2)).foldl (fun a b => a + b) 0
        match f2b_exact_divs cs date0 acc.exact_used 0 acc.units_used with
        | Except.error e => Except.error e
        | Except.ok p =>
          let date1 := date0 + p.1
          if acc.rep_used.isEmpty then
            match (sort_desc p.2).getLast? with
            | none => Except.error PyError.index_error
            | some sm =>
                let date3 := date1 + dmod original (to_base sm.2 1)
                Except.ok (if is_neg then -date3 else date3)
          else Except.error PyError.attribute_error
    else Except.error PyError.format_mismatch

/-!
## The repeating-division alignment (main.py 465-510) and claim C5
-/

/-- The forward sum of the alignment loop (main.py 487-493): weights at
indices i with `curr_day <= i < target_day` (the loop breaks at
`i >= target_day` and adds from `i >= curr_day`). -/
def rep_sum_fwd (defs : List (String × ℚ)) (curr target : ℤ) : ℚ :=
  defs.enum.foldl
    (fun acc p => if (p.1 : ℤ) < target ∧ curr ≤ (p.1 : ℤ) then acc + p.2.2 else acc) 0

/-- The backward sum of the alignment loop (main.py 497-507), over the
reversed definitions with the source's break/add index guards. -/
def rep_sum_bwd (defs : List (String × ℚ)) (curr target : ℤ) : ℚ :=
  defs.reverse.enum.foldl
    (fun acc p =>
      if (p.1 : ℤ) < (defs.length : ℤ) - curr - 1 ∧ (defs.length : ℤ) - target - 1 ≤ (p.1 : ℤ)
      then acc + p.2.2 else acc) 0

/-- The alignment step of format_to_base for one referenced
RepeatingDivision (main.py 471-507): cycle length from the summed weights,
current index `int(unit_in.from_base(date % cycle))`, then the two
branches.  The second branch's guard in the source, `elif target_day >
curr_day`, repeats the first branch's condition `curr_day < target_day`
verbatim, so it can never fire; the subtraction the spec describes for
`curr > target` is dead code and the date is returned unchanged. -/
def rep_div_align (div : RepeatingDivision) (unit_in : CUnit) (date : ℚ) (target : ℤ) : ℚ :=
  let div_total := to_base unit_in (div.division_defs.foldl (fun a p => a + p.2) 0)
  let remainder := dmod date div_total
  let curr := qtrunc (from_base unit_in remainder)
  if curr < target then date + to_base unit_in (rep_sum_fwd div.division_defs curr target)
  else if target > curr then date - to_base unit_in (rep_sum_bwd div.division_defs curr target)
  else date

/-!
## Concrete compiled Gregorian systems for the converter claims
-/

/-- The Month ExactDivision exactly as defined in main.py 1159-1167
(including the source's "Septemder" label). -/
def monthDiv : ExactDivision :=
  ⟨"Month", "Year", "Day",
   [("January", 31), ("February", 28), ("March", 31), ("April", 30),
    ("May", 31), ("June", 30), ("July", 31), ("August", 31),
    ("Septemder", 30), ("October", 31), ("November", 30), ("December", 31)],
   [("Leap Day 4", "February"), ("Leap Day 100", "February"), ("Leap Day 400", "February")]⟩

/-- The Gregorian system with Month added (the state of main.py 1168-1186,
before Week). -/
def gregDefM : SysDef := ⟨gregDef.units, gregDef.exceptions, [monthDiv], []⟩

/-- Compiled view of the units-and-exceptions Gregorian system. -/
def gregU : CompiledSys := mkCompiled gregDef

/-- Compiled view of the Gregorian system with Month. -/
def gregM : CompiledSys := mkCompiled gregDefM

/-- The unit table compile derives for the Gregorian definitions. -/
def gregTable : List (String × CUnit) :=
  [("Second", CUnit.base), ("Minute", gregMinute), ("Hour", gregHour),
   ("Day", gregDay), ("Year", gregYear)]

theorem gregU_eq : gregU = ⟨gregTable, gregDef.exceptions, [], []⟩ := by
  unfold gregU mkCompiled
  refine congrArg (fun t => CompiledSys.mk t gregDef.exceptions [] []) ?_
  norm_num +decide [compile, has_dup, hierarchy_err, gregDef, exception_lineage_check,
    find_unit, strict_ancestors, List.find?, List.findSome?, walkTable, children, walk,
    exc_sim, to_base, from_base, gregTable, gregMinute, gregHour, gregDay, gregYear]

theorem gregM_eq : gregM = ⟨gregTable, gregDef.exceptions, [monthDiv], []⟩ := by
  unfold gregM mkCompiled gregDefM
  refine congrArg (fun t => CompiledSys.mk t gregDef.exceptions [monthDiv] []) ?_
  norm_num +decide [compile, has_dup, hierarchy_err, gregDef, monthDiv, div_check,
    exception_lineage_check, find_unit, strict_ancestors, List.find?, List.findSome?,
    walkTable, children, walk, exc_sim, to_base, from_base, gregTable, gregMinute,
    gregHour, gregDay, gregYear]

/-!
## Claim C5: the repeating-division re-alignment
-/

/-- The Week RepeatingDivision of main.py 1191-1194. -/
def weekDiv : RepeatingDivision :=
  ⟨"Week", "Day",
   [("Sunday", 1), ("Monday", 1), ("Tuesday", 1), ("Wednesday", 1),
    ("Thursday", 1), ("Friday", 1), ("Saturday", 1)]⟩

/-- C5 (code bug): at a date three days into the week (current index c = 3)
with requested target index g = 0, the claim and the source's own comment
("Must subtract time to get to target day") call for subtracting the
mirrored weights of labels [0, 3) — three days, landing on 0.  But the
second branch's guard `elif target_day > curr_day` (main.py 497) repeats
the first branch's condition, so it never fires and the date is returned
unchanged: the alignment computes 259200, not 0. -/
theorem C5_repeating_alignment_dead_branch :
    rep_div_align weekDiv gregDay 259200 0 = 259200 := by
  norm_num [rep_div_align, weekDiv, gregDay, gregHour, gregMinute, to_base, from_base,
    dmod, qtrunc, rep_sum_fwd, rep_sum_bwd]

/-!
## Claim C7: what format mismatches are actually detected
-/

/-- Counterexample to C7 as stated: with no negative template, the value
"/2021/" against template ":Year:" has equal token counts but disagreeing
delimiter literals at positions 0 and 2 — and the call *succeeds* (the
source compares literals only inside `_check_formats_same`, which runs only
when a negative template is supplied). -/
theorem C7_literal_mismatch_counterexample :
    format_to_base gregU ["/", "2021", "/"] [":", "Year", ":"] none 0 [] =
      Except.ok (2021 * 31556952) := by
  rw [gregU_eq]
  norm_num +decide [format_to_base, classify, lookup_unit, find_exact_div,
    find_repeating_div, gregTable, gregDef, List.find?, parseDecimal, parse_decimal_chars,
    parse_digits_from, digitVal, lookup_val_q, f2b_exact_divs, sort_desc, insert_desc,
    get_working_conversion_factor, to_base, from_base, dmod, qtrunc, gregYear, gregDay,
    gregHour, gregMinute, List.zip, List.zipWith]

/-- C7 (amended): with no negative template, format_to_base checks *only*
that the token counts agree (main.py 376): a count mismatch always fails
with a format-mismatch error, while equal-length sequences with differing
delimiter literals are accepted.  Literal tokens are compared only when a
negative template is supplied (via `_check_formats_same`, to pick between
the positive and negative skeletons). -/
theorem C7_token_count_amended (cs : CompiledSys) (numToks fmtToks : List String)
    (original : ℚ) (ob : List String) (h : ¬ fmtToks.length = numToks.length) :
    format_to_base cs numToks fmtToks none original ob =
      Except.error PyError.format_mismatch := by
  simp only [format_to_base]
  rw [if_neg h]

/-- Witness for C7 (amended): template tokens [":", "Year", ":"] against
the two value tokens [":", "2021"]. -/
theorem C7_token_count_witness :
    ¬ ([":", "Year", ":"] : List String).length = ([":", "2021"] : List String).length ∧
      format_to_base gregU [":", "2021"] [":", "Year", ":"] none 0 [] =
        Except.error PyError.format_mismatch :=
  ⟨by decide, C7_token_count_amended gregU [":", "2021"] [":", "Year", ":"] 0 [] (by decide)⟩

/-!
## Claim C4: the sign convention of base_to_format
-/

/-- C4 (amended): for a negative date, base_to_format first negates it, and
formats with the alternate template only when one was supplied; with no
negative template, main.py prepends *no* marker — the result is exactly the
result for |t|, so negative dates are not distinguishable in the output.
(The marker-prepending behaviour the claim describes exists only in the
earlier revision, time_system.py 205-207.) -/
theorem C4_negative_no_marker_amended (cs : CompiledSys) (fmtToks : List String)
    (ob : List String) (t : ℚ) (ht : t < 0) :
    base_to_format cs fmtToks none ob t = base_to_format cs fmtToks none ob (-t) := by
  have h1 : ¬ (-t < 0) := by linarith
  simp [base_to_format, base_to_format_tokens, ht, h1]

/-- Counterexample to C4 as stated: for the compiled Gregorian system and
template tokens of ":Year:Day:Second:", the outputs for -31556952 and
+31556952 are the *same* string ":1:0:0:" — nothing distinguishes the
negative date when no negative template is supplied. -/
theorem C4_negative_counterexample :
    base_to_format gregU [":", "Year", ":", "Day", ":", "Second", ":"] none []
        (-31556952) = Except.ok ":1:0:0:" ∧
      base_to_format gregU [":", "Year", ":", "Day", ":", "Second", ":"] none []
        31556952 = Except.ok ":1:0:0:" := by
  rw [gregU_eq]
  constructor <;>
    norm_num +decide [base_to_format, base_to_format_tokens, collect_refs, lookup_unit,
      find_exact_div, find_repeating_div, gregTable, gregDef, List.find?, sort_desc,
      insert_desc, get_working_conversion_factor, units_loop, b2f_exact_divs, lookup_val,
      to_base, from_base, dmod, qtrunc, gregYear, gregDay, gregHour, gregMinute,
      printInt, printNat, natChars, Nat.digits_def', digitChar]

/-!
## Claim C8: partial-update preservation
-/

/-- C8: for every compiled system in which "Year" resolves to a unit (and
":" is not a declared name, so the template ":Year:" tokenizes as
delimiter/identifier/delimiter), `format_to_base(":2021:", ":Year:",
original)` returns `to_base(Year, 2021) + original % Year.to_base(1)`, and
that value is congruent to `original` modulo `Year.to_base(1)`:
granularities finer than the smallest referenced unit are carried over
unchanged, so specifying only coarse fields never zeroes finer ones. -/
theorem C8_partial_update_preserved (cs : CompiledSys) (c : CUnit) (original : ℚ)
    (hY : lookup_unit cs "Year" = some c)
    (h1 : lookup_unit cs ":" = none)
    (h2 : find_exact_div cs ":" = none)
    (h3 : find_repeating_div cs ":" = none) :
    format_to_base cs [":", "2021", ":"] [":", "Year", ":"] none original [] =
        Except.ok (to_base c 2021 + dmod original (to_base c 1)) ∧
      qmod (to_base c 2021 + dmod original (to_base c 1)) (to_base c 1) =
        qmod original (to_base c 1) := by
  constructor
  · have hp : parseDecimal "2021" = some 2021 := by
      norm_num +decide [parseDecimal, parse_decimal_chars, parse_digits_from, digitVal]
    simp only [format_to_base, List.zip, List.zipWith, classify, h1, h2, h3, hY, hp]
    norm_num [lookup_val_q, List.find?, f2b_exact_divs, sort_desc, insert_desc]
  · rcases eq_or_ne (to_base c 1) 0 with hT | hT
    · rw [to_base_eq_mul c 2021, hT]
      simp [dmod, qmod]
    · have hshift : to_base c 2021 + dmod original (to_base c 1) =
          original + ((2021 - qtrunc (original / to_base c 1) : ℤ) : ℚ) * to_base c 1 := by
        rw [to_base_eq_mul c 2021, dmod]
        push_cast
        ring
      rw [hshift, qmod_add_int_mul hT]

/-- Witness for C8 at the compiled Gregorian system with original = -1. -/
theorem C8_partial_update_witness :
    (lookup_unit gregU "Year" = some gregYear ∧ lookup_unit gregU ":" = none ∧
        find_exact_div gregU ":" = none ∧ find_repeating_div gregU ":" = none) ∧
      (format_to_base gregU [":", "2021", ":"] [":", "Year", ":"] none (-1) [] =
          Except.ok (to_base gregYear 2021 + dmod (-1) (to_base gregYear 1)) ∧
        qmod (to_base gregYear 2021 + dmod (-1) (to_base gregYear 1)) (to_base gregYear 1) =
          qmod (-1) (to_base gregYear 1)) := by
  have hY : lookup_unit gregU "Year" = some gregYear := by
    rw [gregU_eq]
    norm_num +decide [lookup_unit, gregTable, List.find?]
  have h1 : lookup_unit gregU ":" = none := by
    rw [gregU_eq]
    norm_num +decide [lookup_unit, gregTable, List.find?]
  have h2 : find_exact_div gregU ":" = none := by
    rw [gregU_eq]
    norm_num +decide [find_exact_div, List.find?]
  have h3 : find_repeating_div gregU ":" = none := by
    rw [gregU_eq]
    norm_num +decide [find_repeating_div, List.find?]
  exact ⟨⟨hY, h1, h2, h3⟩, C8_partial_update_preserved gregU gregYear (-1) hY h1 h2 h3⟩

/-!
## Claim C1: the format round trip
-/

/-- The one-based units of the American-format tests (main.py 1170). -/
def obMD : List String := ["Month", "Day"]

set_option maxHeartbeats 1000000 in
/-- Counterexample to C1 as stated, on the compiled Gregorian system with
Month and the template "Month/Day/Year" (tokens below are what the name and
numeric tokenizers produce).  The string "2/1/0" — February 1st of year 0 —
is well formed: it matches the template and is itself an output of
base_to_format (at base value 2678401).  Yet format_to_base maps it to
2678400 (= exactly 31 days), and base_to_format maps that back to
"1/32/0", not "2/1/0": the subdivision walk's `remainder <= 0` boundary
assigns an exact-boundary remainder to the *preceding* subdivision. -/
theorem C1_round_trip_counterexample :
    format_to_base gregM ["2", "/", "1", "/", "0"] ["Month", "/", "Day", "/", "Year"]
        none 0 obMD = Except.ok 2678400 ∧
      base_to_format gregM ["Month", "/", "Day", "/", "Year"] none obMD 2678400 =
        Except.ok "1/32/0" ∧
      base_to_format gregM ["Month", "/", "Day", "/", "Year"] none obMD 2678401 =
        Except.ok "2/1/0" ∧
      ("1/32/0" : String) ≠ "2/1/0" := by
  rw [gregM_eq]
  refine ⟨?_, ?_, ?_, by decide⟩ <;>
    norm_num +decide [format_to_base, classify, base_to_format, base_to_format_tokens,
      collect_refs, lookup_unit, find_exact_div, find_repeating_div, find_exception,
      gregTable, gregDef, monthDiv, obMD, List.find?, List.zip, List.zipWith,
      parseDecimal, parse_decimal_chars, parse_digits_from, digitVal, parseInt,
      lookup_val_q, lookup_val, set_val, f2b_exact_divs, b2f_exact_divs, b2f_exact_div,
      b2f_div_walk, get_exact_div_offsets, apply_corrections, add_offsets_at, units_loop,
      sort_desc, insert_desc, get_working_conversion_factor, to_base, from_base, dmod,
      qtrunc, gregYear, gregDay, gregHour, gregMinute, printInt, printNat, natChars,
      Nat.digits_def', digitChar, Int.toNat_ofNat] <;>
    simp [Nat.digits_def', digitChar]

/-- Witness for C4 (amended) at t = -31556952 on the compiled Gregorian
system. -/
theorem C4_negative_witness :
    ((-31556952 : ℚ) < 0) ∧
      base_to_format gregU [":", "Year", ":", "Day", ":", "Second", ":"] none []
          (-31556952) =
        base_to_format gregU [":", "Year", ":", "Day", ":", "Second", ":"] none []
          (-(-31556952)) :=
  ⟨by norm_num, C4_negative_no_marker_amended gregU
    [":", "Year", ":", "Day", ":", "Second", ":"] [] (-31556952) (by norm_num)⟩

/-!
## Towards C1 (amended): the greedy unit decomposition round-trips

The unit loop of base_to_format performs a greedy decomposition of the
(nonnegative) base value over the sorted unit list; format_to_base sums
the per-unit contributions back.  The chain below shows the decomposition
is idempotent for positive lineage products, in whatever order the units
are processed.
-/

/-- The raw (pre-one-based-adjustment) values the unit loop records, in
list order. -/
def greedy_raw : List (String × CUnit) → ℚ → List ℤ
  | [], _ => []
  | (_, c) :: rest, curr =>
      qtrunc (from_base c (curr - dmod curr (to_base c 1))) ::
        greedy_raw rest (dmod curr (to_base c 1))

/-- The base-unit total format_to_base rebuilds from raw unit values. -/
def recompose : List (String × CUnit) → List ℤ → ℚ
  | (_, c) :: rest, v :: vs => (v : ℚ) * to_base c 1 + recompose rest vs
  | _, _ => 0

theorem greedy_head_val {c : CUnit} {t : ℚ} (hW : 0 < to_base c 1) (ht : 0 ≤ t) :
    qtrunc (from_base c (t - dmod t (to_base c 1))) = ⌊t / to_base c 1⌋ ∧
      (⌊t / to_base c 1⌋ : ℚ) * to_base c 1 = t - dmod t (to_base c 1) := by
  have hW0 : to_base c 1 ≠ 0 := hW.ne'
  have hq : (0 : ℚ) ≤ t / to_base c 1 := div_nonneg ht hW.le
  have hsub : t - dmod t (to_base c 1) =
      to_base c 1 * (⌊t / to_base c 1⌋ : ℚ) := by
    rw [dmod, qtrunc_of_nonneg hq]
    ring
  constructor
  · rw [from_base_eq_div, hsub, mul_comm, mul_div_assoc, div_self hW0, mul_one,
      qtrunc_intCast]
  · rw [hsub]
    ring

/-- The unit loop is the greedy raw chain with the one-based adjustment
zipped over it. -/
theorem units_loop_eq_zip (ob : List String) :
    ∀ (l : List (String × CUnit)) (t : ℚ),
      units_loop ob l t =
        (l.zip (greedy_raw l t)).map
          (fun p => (p.1.1, if ob.contains p.1.1 then p.2 + 1 else p.2)) := by
  intro l
  induction l with
  | nil => intro t; rfl
  | cons p rest ih =>
      intro t
      obtain ⟨n, c⟩ := p
      simp only [units_loop, greedy_raw, List.zip_cons_cons, List.map_cons, ih]

/-- Keys of the unit loop output are the keys of the unit list, in order. -/
theorem units_loop_keys (ob : List String) :
    ∀ (l : List (String × CUnit)) (t : ℚ),
      (units_loop ob l t).map (fun p => p.1) = l.map (fun p => p.1) := by
  intro l
  induction l with
  | nil => intro t; rfl
  | cons p rest ih =>
      intro t
      obtain ⟨n, c⟩ := p
      simp only [units_loop, List.map_cons, ih, List.map]

/-- All values the unit loop records for a nonnegative input over units with
positive lineage products are nonnegative. -/
theorem units_loop_nonneg (ob : List String) :
    ∀ (l : List (String × CUnit)) (t : ℚ),
      (∀ p ∈ l, 0 < to_base p.2 1) → 0 ≤ t →
        ∀ q ∈ units_loop ob l t, 0 ≤ q.2 := by
  intro l
  induction l with
  | nil => intro t _ _ q hq; simp [units_loop] at hq
  | cons p rest ih =>
      intro t hpos ht q hq
      obtain ⟨n, c⟩ := p
      have hW : 0 < to_base c 1 := hpos (n, c) (by simp)
      have hfacts := greedy_head_val hW ht
      have hknn : (0 : ℤ) ≤ ⌊t / to_base c 1⌋ :=
        Int.floor_nonneg.mpr (div_nonneg ht hW.le)
      simp only [units_loop, List.mem_cons] at hq
      rcases hq with hq | hq
      · subst hq
        simp only
        rw [hfacts.1]
        split <;> omega
      · exact ih (dmod t (to_base c 1)) (fun x hx => hpos x (by simp [hx]))
          (dmod_nonneg ht hW) q hq

/-- The rebuilt total of a greedy decomposition is between 0 and the
input. -/
theorem recompose_greedy_bounds :
    ∀ (l : List (String × CUnit)) (t : ℚ),
      (∀ p ∈ l, 0 < to_base p.2 1) → 0 ≤ t →
        0 ≤ recompose l (greedy_raw l t) ∧ recompose l (greedy_raw l t) ≤ t := by
  intro l
  induction l with
  | nil => intro t _ ht; simp [greedy_raw, recompose, ht]
  | cons p rest ih =>
      intro t hpos ht
      obtain ⟨n, c⟩ := p
      have hW : 0 < to_base c 1 := hpos (n, c) (by simp)
      have hfacts := greedy_head_val hW ht
      have hrem0 : 0 ≤ dmod t (to_base c 1) := dmod_nonneg ht hW
      have hremt : dmod t (to_base c 1) ≤ t := dmod_le_self ht hW
      have hrec := ih (dmod t (to_base c 1)) (fun x hx => hpos x (by simp [hx])) hrem0
      simp only [greedy_raw, recompose, hfacts.1]
      constructor
      · have : (0 : ℚ) ≤ (⌊t / to_base c 1⌋ : ℚ) * to_base c 1 := by
          rw [hfacts.2]
          have := dmod_le_self ht hW
          have h2 := dmod_lt ht hW
          linarith [dmod_lt ht hW, hfacts.2]
        linarith [hrec.1]
      · have : (⌊t / to_base c 1⌋ : ℚ) * to_base c 1 = t - dmod t (to_base c 1) :=
          hfacts.2
        linarith [hrec.2]

/-- Greedy decomposition is idempotent: decomposing the rebuilt total gives
the same raw values, whatever the processing order of the units. -/
theorem greedy_raw_idem :
    ∀ (l : List (String × CUnit)) (t : ℚ),
      (∀ p ∈ l, 0 < to_base p.2 1) → 0 ≤ t →
        greedy_raw l (recompose l (greedy_raw l t)) = greedy_raw l t := by
  intro l
  induction l with
  | nil => intro t _ _; rfl
  | cons p rest ih =>
      intro t hpos ht
      obtain ⟨n, c⟩ := p
      have hW : 0 < to_base c 1 := hpos (n, c) (by simp)
      have hfacts := greedy_head_val hW ht
      have hrem0 : 0 ≤ dmod t (to_base c 1) := dmod_nonneg ht hW
      have hremW : dmod t (to_base c 1) < to_base c 1 := dmod_lt ht hW
      have hposr : ∀ p ∈ rest, 0 < to_base p.2 1 := fun x hx => hpos x (by simp [hx])
      have hrec := recompose_greedy_bounds rest (dmod t (to_base c 1)) hposr hrem0
      have hknn : (0 : ℤ) ≤ ⌊t / to_base c 1⌋ :=
        Int.floor_nonneg.mpr (div_nonneg ht hW.le)
      have hr2W : recompose rest (greedy_raw rest (dmod t (to_base c 1))) < to_base c 1 :=
        lt_of_le_of_lt hrec.2 hremW
      have hdm : dmod ((⌊t / to_base c 1⌋ : ℚ) * to_base c 1 +
            recompose rest (greedy_raw rest (dmod t (to_base c 1)))) (to_base c 1) =
          recompose rest (greedy_raw rest (dmod t (to_base c 1))) :=
        dmod_mul_add _ hknn hrec.1 hr2W
      simp only [greedy_raw, recompose, hfacts.1]
      rw [hdm, List.cons.injEq]
      constructor
      · have hsub : (⌊t / to_base c 1⌋ : ℚ) * to_base c 1 +
            recompose rest (greedy_raw rest (dmod t (to_base c 1))) -
            recompose rest (greedy_raw rest (dmod t (to_base c 1))) =
            (⌊t / to_base c 1⌋ : ℚ) * to_base c 1 := by ring
        rw [hsub, from_base_eq_div, mul_div_assoc, div_self hW.ne', mul_one,
          qtrunc_intCast]
      · rw [ih (dmod t (to_base c 1)) hposr hrem0]

/-- The units component of the reference collection: both converters build
their used-unit list with the same membership test and append (main.py
188-191 and 402-405). -/
def collect_units (cs : CompiledSys) :
    List String → List (String × CUnit) → List (String × CUnit)
  | [], acc => acc
  | tok :: rest, acc =>
    match lookup_unit cs tok with
    | some c =>
        if acc.any (fun p => p.1 = tok) then collect_units cs rest acc
        else collect_units cs rest (acc ++ [(tok, c)])
    | none => collect_units cs rest acc

theorem collect_refs_units_only (cs : CompiledSys) (hrd : cs.repeating_divs = []) :
    ∀ (toks : List String) (acc : UsedRefs),
      (∀ tok ∈ toks, find_exact_div cs tok = none) →
      collect_refs cs toks acc =
        ⟨collect_units cs toks acc.used_units, acc.used_exact_divs,
          acc.used_repeating_divs⟩ := by
  intro toks
  induction toks with
  | nil => intro acc _; rfl
  | cons tok rest ih =>
      intro acc hdiv
      have htl : ∀ x ∈ rest, find_exact_div cs x = none := fun x hx => hdiv x (by simp [hx])
      cases hl : lookup_unit cs tok with
      | some c =>
          simp only [collect_refs, collect_units, hl]
          by_cases ha : acc.used_units.any (fun p => p.1 = tok) = true
          · rw [if_pos ha, if_pos ha]
            exact ih acc htl
          · rw [if_neg ha, if_neg ha]
            exact ih ⟨acc.used_units ++ [(tok, c)], acc.used_exact_divs,
              acc.used_repeating_divs⟩ htl
      | none =>
          have hfe : find_exact_div cs tok = none := hdiv tok (by simp)
          have hfr : find_repeating_div cs tok = none := by simp [find_repeating_div, hrd]
          simp only [collect_refs, collect_units, hl, hfe, hfr]
          exact ih acc htl

theorem collect_units_prefix (cs : CompiledSys) :
    ∀ (toks : List String) (acc : List (String × CUnit)),
      ∃ ext, collect_units cs toks acc = acc ++ ext := by
  intro toks
  induction toks with
  | nil => intro acc; exact ⟨[], by simp [collect_units]⟩
  | cons tok rest ih =>
      intro acc
      cases hl : lookup_unit cs tok with
      | some c =>
          by_cases ha : acc.any (fun p => p.1 = tok) = true
          · simpa only [collect_units, hl, if_pos ha] using ih acc
          · obtain ⟨ext, hext⟩ := ih (acc ++ [(tok, c)])
            exact ⟨(tok, c) :: ext, by
              simp only [collect_units, hl, if_neg ha, hext, List.append_assoc,
                List.singleton_append]⟩
      | none => simpa only [collect_units, hl] using ih acc

theorem collect_units_mem (cs : CompiledSys) :
    ∀ (toks : List String) (acc : List (String × CUnit)),
      ∀ p ∈ collect_units cs toks acc,
        p ∈ acc ∨ (p.1 ∈ toks ∧ lookup_unit cs p.1 = some p.2) := by
  intro toks
  induction toks with
  | nil => intro acc p hp; exact Or.inl hp
  | cons tok rest ih =>
      intro acc p hp
      cases hl : lookup_unit cs tok with
      | some c =>
          by_cases ha : acc.any (fun q => q.1 = tok) = true
          · simp only [collect_units, hl, if_pos ha] at hp
            rcases ih acc p hp with h | h
            · exact Or.inl h
            · exact Or.inr ⟨by simp [h.1], h.2⟩
          · simp only [collect_units, hl, if_neg ha] at hp
            rcases ih (acc ++ [(tok, c)]) p hp with h | h
            · rcases List.mem_append.mp h with h | h
              · exact Or.inl h
              · have : p = (tok, c) := by simpa using h
                subst this
                exact Or.inr ⟨by simp, hl⟩
            · exact Or.inr ⟨by simp [h.1], h.2⟩
      | none =>
          simp only [collect_units, hl] at hp
          rcases ih acc p hp with h | h
          · exact Or.inl h
          · exact Or.inr ⟨by simp [h.1], h.2⟩

theorem collect_units_key_present (cs : CompiledSys) :
    ∀ (toks : List String) (acc : List (String × CUnit)) (tok : String),
      tok ∈ toks → (lookup_unit cs tok).isSome = true →
      ∃ q ∈ collect_units cs toks acc, q.1 = tok := by
  intro toks
  induction toks with
  | nil => intro acc tok h _; simp at h
  | cons tok2 rest ih =>
      intro acc tok hmem hsome
      rcases List.mem_cons.mp hmem with heq | htl
      · subst heq
        cases hl : lookup_unit cs tok with
        | none => rw [hl] at hsome; simp at hsome
        | some c =>
            by_cases ha : acc.any (fun q => q.1 = tok) = true
            · simp only [collect_units, hl, if_pos ha]
              obtain ⟨q, hq, hqk⟩ := List.any_eq_true.mp ha
              obtain ⟨ext, hext⟩ := collect_units_prefix cs rest acc
              exact ⟨q, by rw [hext]; exact List.mem_append_left _ hq, by simpa using hqk⟩
            · simp only [collect_units, hl, if_neg ha]
              obtain ⟨ext, hext⟩ := collect_units_prefix cs rest (acc ++ [(tok, c)])
              refine ⟨(tok, c), ?_, rfl⟩
              rw [hext]
              exact List.mem_append_left _ (by simp)
      · cases hl : lookup_unit cs tok2 with
        | some c =>
            by_cases ha : acc.any (fun q => q.1 = tok2) = true
            · simp only [collect_units, hl, if_pos ha]
              exact ih acc tok htl hsome
            · simp only [collect_units, hl, if_neg ha]
              exact ih (acc ++ [(tok2, c)]) tok htl hsome
        | none =>
            simp only [collect_units, hl]
            exact ih acc tok htl hsome

theorem collect_units_nodup_keys (cs : CompiledSys) :
    ∀ (toks : List String) (acc : List (String × CUnit)),
      (acc.map (fun p => p.1)).Nodup →
      ((collect_units cs toks acc).map (fun p => p.1)).Nodup := by
  intro toks
  induction toks with
  | nil => intro acc h; exact h
  | cons tok rest ih =>
      intro acc hnd
      cases hl : lookup_unit cs tok with
      | some c =>
          by_cases ha : acc.any (fun q => q.1 = tok) = true
          · simp only [collect_units, hl, if_pos ha]
            exact ih acc hnd
          · simp only [collect_units, hl, if_neg ha]
            refine ih (acc ++ [(tok, c)]) ?_
            have hnotin : tok ∉ acc.map (fun p => p.1) := by
              intro hmem
              obtain ⟨q, hq, hqk⟩ := List.mem_map.mp hmem
              exact ha (List.any_eq_true.mpr ⟨q, hq, by simp [hqk]⟩)
            simp [List.nodup_append, hnd, hnotin]
      | none =>
          simp only [collect_units, hl]
          exact ih acc hnd

theorem insert_desc_perm (a : String × CUnit) :
    ∀ l : List (String × CUnit), List.Perm (insert_desc a l) (a :: l) := by
  intro l
  induction l with
  | nil => rfl
  | cons b bs ih =>
      rw [insert_desc]
      split
      · rfl
      · exact (List.Perm.cons b ih).trans (List.Perm.swap a b bs)

theorem sort_desc_aux_perm :
    ∀ (l acc : List (String × CUnit)),
      List.Perm (l.foldl (fun acc a => insert_desc a acc) acc) (acc ++ l) := by
  intro l
  induction l with
  | nil => intro acc; simp
  | cons a rest ih =>
      intro acc
      have h0 : (a :: rest).foldl (fun acc x => insert_desc x acc) acc
          = rest.foldl (fun acc x => insert_desc x acc) (insert_desc a acc) := by
        simp [List.foldl_cons]
      rw [h0]
      refine (ih (insert_desc a acc)).trans ?_
      refine ((insert_desc_perm a acc).append_right rest).trans ?_
      simp only [List.cons_append]
      exact List.perm_middle.symm

theorem sort_desc_perm (l : List (String × CUnit)) : List.Perm (sort_desc l) l := by
  simpa using sort_desc_aux_perm l []

/-- The identifier substitution of base_to_format (main.py 283-304) for one
token: the recorded value if the token has one, else the token itself. -/
def subst_tok (vals : List (String × ℤ)) (tok : String) : String :=
  match lookup_val vals tok with
  | some v => printInt v
  | none => tok

theorem zip_self_map {α β : Type} (f : α → β) :
    ∀ l : List α, l.zip (l.map f) = l.map (fun a => (a, f a)) := by
  intro l
  induction l with
  | nil => rfl
  | cons a rest ih => simp [List.zip_cons_cons, ih]

theorem foldl_add_init : ∀ (l : List ℚ) (a : ℚ), l.foldl (fun x y => x + y) a = a + l.sum := by
  intro l
  induction l with
  | nil => intro a; simp
  | cons x rest ih =>
      intro a
      simp only [List.foldl_cons, List.sum_cons, ih]
      ring

/-- base_to_format on a unit-only template of a repeating-division-free
system: every token is substituted through the unit loop's recorded
values. -/
theorem b2f_tokens_units_only (cs : CompiledSys) (toks ob : List String) (t : ℚ)
    (hrd : cs.repeating_divs = [])
    (hdiv : ∀ tok ∈ toks, find_exact_div cs tok = none) (ht : 0 ≤ t) :
    base_to_format_tokens cs toks none ob t =
      Except.ok (toks.map
        (subst_tok (units_loop ob (sort_desc (collect_units cs toks [])) t))) := by
  have hneg : ¬ t < 0 := not_lt.mpr ht
  simp [base_to_format_tokens, hrd, hneg,
    collect_refs_units_only cs hrd toks ⟨[], [], []⟩ hdiv, b2f_exact_divs, subst_tok]

/-- The classification loop on a unit-only template whose value tokens are
the printed recorded values: it rebuilds exactly the collected unit list
and the per-unit base contributions. -/
theorem classify_units_only (cs : CompiledSys) (ob : List String)
    (vals : List (String × ℤ)) (hrd : cs.repeating_divs = []) :
    ∀ (toks : List String) (acc : ClassAcc),
      (∀ tok ∈ toks, find_exact_div cs tok = none) →
      (∀ tok c, tok ∈ toks → lookup_unit cs tok = some c →
        ∃ v, lookup_val vals tok = some v ∧ 0 ≤ v) →
      (∀ p ∈ acc.units_used, lookup_unit cs p.1 = some p.2) →
      (acc.units_in_base = acc.units_used.map (fun p =>
        (p.1, to_base p.2 (((lookup_val vals p.1).getD 0 : ℚ) -
          (if ob.contains p.1 then 1 else 0))))) →
      classify cs ob (toks.map (fun tok => (tok, subst_tok vals tok))) acc =
        Except.ok ⟨(collect_units cs toks acc.units_used).map (fun p =>
            (p.1, to_base p.2 (((lookup_val vals p.1).getD 0 : ℚ) -
              (if ob.contains p.1 then 1 else 0)))),
          collect_units cs toks acc.units_used, acc.exact_used, acc.rep_used⟩ := by
  intro toks
  induction toks with
  | nil =>
      intro acc _ _ _ hinv
      simp only [List.map_nil, classify, collect_units]
      rw [← hinv]
  | cons tok rest ih =>
      intro acc hdiv hv hused hinv
      have htl_div : ∀ x ∈ rest, find_exact_div cs x = none :=
        fun x hx => hdiv x (by simp [hx])
      have htl_v : ∀ x c, x ∈ rest → lookup_unit cs x = some c →
          ∃ v, lookup_val vals x = some v ∧ 0 ≤ v :=
        fun x c hx => hv x c (by simp [hx])
      cases hl : lookup_unit cs tok with
      | some c =>
          obtain ⟨v, hvv, hvnn⟩ := hv tok c (by simp) hl
          have hsub : subst_tok vals tok = printInt v := by
            simp [subst_tok, hvv]
          have hparse : parseDecimal (subst_tok vals tok) = some (v : ℚ) := by
            rw [hsub]
            exact parseDecimal_printInt_nonneg v hvnn
          have hcontrib : to_base c (if ob.contains tok = true then (v : ℚ) - 1 else (v : ℚ)) =
              to_base c (((lookup_val vals tok).getD 0 : ℚ) -
                (if ob.contains tok then 1 else 0)) := by
            rw [hvv]
            simp only [Option.getD_some]
            congr 1
            by_cases hob : ob.contains tok = true
            · rw [if_pos hob, if_pos hob]
            · rw [if_neg hob, if_neg hob, sub_zero]
          by_cases ha : acc.units_used.any (fun p => p.1 = tok) = true
          · -- the unit is already recorded: consistency holds and nothing changes
            obtain ⟨q, hq, hqk⟩ := List.any_eq_true.mp ha
            have hqk2 : q.1 = tok := by simpa using hqk
            have hfind : ∃ q0, acc.units_used.find? (fun p => p.1 = tok) = some q0 := by
              have hex : ∃ x ∈ acc.units_used, (fun p => decide (p.1 = tok)) x = true :=
                ⟨q, hq, hqk⟩
              have hs := List.find?_isSome.mpr hex
              cases hf : acc.units_used.find? (fun p => p.1 = tok) with
              | none => rw [hf] at hs; simp at hs
              | some q0 => exact ⟨q0, rfl⟩
            obtain ⟨q0, hq0⟩ := hfind
            have hq0mem : q0 ∈ acc.units_used := List.mem_of_find?_eq_some hq0
            have hq0k : q0.1 = tok := by
              have := List.find?_some hq0
              simpa using this
            have hq0c : q0.2 = c := by
              have := hused q0 hq0mem
              rw [hq0k, hl] at this
              exact (Option.some.injEq _ _).mp this.symm
            have hlookup_prev : lookup_val_q acc.units_in_base tok =
                some (to_base c (((lookup_val vals tok).getD 0 : ℚ) -
                  (if ob.contains tok then 1 else 0))) := by
              rw [hinv]
              unfold lookup_val_q
              rw [List.find?_map]
              have hfm : acc.units_used.find?
                  ((fun p => decide (p.1 = tok)) ∘ (fun p =>
                    (p.1, to_base p.2 (((lookup_val vals p.1).getD 0 : ℚ) -
                      (if ob.contains p.1 then 1 else 0))))) = some q0 := by
                rw [← hq0]
                congr 1
              rw [hfm]
              simp [hq0k, hq0c]
            simp only [List.map_cons, classify, hl, hparse, ha, if_true, hlookup_prev,
              hcontrib, eq_self_iff_true, ite_true]
            rw [ih ⟨acc.units_in_base, acc.units_used, acc.exact_used, acc.rep_used⟩
              htl_div htl_v hused hinv]
            have hcoll : collect_units cs (tok :: rest) acc.units_used =
                collect_units cs rest acc.units_used := by
              simp only [collect_units, hl, ha, if_true]
            rw [hcoll]
          · -- a new unit: appended to both maps
            have hnotkey : tok ∉ acc.units_used.map (fun p => p.1) := by
              intro hmem
              obtain ⟨q, hq, hqk⟩ := List.mem_map.mp hmem
              exact ha (List.any_eq_true.mpr ⟨q, hq, by simp [hqk]⟩)
            have hfind_none : acc.units_used.find? (fun p => p.1 = tok) = none := by
              rw [List.find?_eq_none]
              intro q hq
              simp only [decide_eq_true_eq]
              intro hqk
              exact hnotkey (List.mem_map.mpr ⟨q, hq, hqk⟩)
            have hlookup_none : lookup_val_q acc.units_in_base tok = none := by
              rw [hinv]
              unfold lookup_val_q
              rw [List.find?_map]
              have : acc.units_used.find?
                  ((fun p => decide (p.1 = tok)) ∘ (fun p =>
                    (p.1, to_base p.2 (((lookup_val vals p.1).getD 0 : ℚ) -
                      (if ob.contains p.1 then 1 else 0))))) = none := by
                rw [← hfind_none]
                congr 1
              rw [this]
              rfl
            have hused2 : ∀ p ∈ acc.units_used ++ [(tok, c)], lookup_unit cs p.1 = some p.2 := by
              intro p hp
              rcases List.mem_append.mp hp with hp | hp
              · exact hused p hp
              · have : p = (tok, c) := by simpa using hp
                subst this
                exact hl
            have hinv2 : acc.units_in_base ++
                  [(tok, to_base c (((lookup_val vals tok).getD 0 : ℚ) -
                    (if ob.contains tok then 1 else 0)))] =
                (acc.units_used ++ [(tok, c)]).map (fun p =>
                  (p.1, to_base p.2 (((lookup_val vals p.1).getD 0 : ℚ) -
                    (if ob.contains p.1 then 1 else 0)))) := by
              rw [List.map_append, ← hinv]
              simp
            simp only [List.map_cons, classify, hl, hparse, hlookup_none, hcontrib]
            rw [if_neg ha]
            have := ih ⟨acc.units_in_base ++
                [(tok, to_base c (((lookup_val vals tok).getD 0 : ℚ) -
                  (if ob.contains tok then 1 else 0)))],
              acc.units_used ++ [(tok, c)], acc.exact_used, acc.rep_used⟩
              htl_div htl_v hused2 hinv2
            rw [this]
            have hcoll : collect_units cs (tok :: rest) acc.units_used =
                collect_units cs rest (acc.units_used ++ [(tok, c)]) := by
              simp only [collect_units, hl]
              rw [if_neg ha]
            rw [hcoll]
      | none =>
          have hfe : find_exact_div cs tok = none := hdiv tok (by simp)
          have hfr : find_repeating_div cs tok = none := by simp [find_repeating_div, hrd]
          have hcoll : collect_units cs (tok :: rest) acc.units_used =
              collect_units cs rest acc.units_used := by
            simp only [collect_units, hl]
          simp only [List.map_cons, classify, hl, hfe, hfr]
          rw [ih acc htl_div htl_v hused hinv, hcoll]

/-- Summing the unit loop's per-unit base contributions (with the one-based
adjustment undone, as classify does) rebuilds the greedy total. -/
theorem sum_contribs_eq_recompose (ob : List String) :
    ∀ (l : List (String × CUnit)) (t : ℚ),
      (l.map (fun p => p.1)).Nodup →
      (l.map (fun p => to_base p.2
          (((lookup_val (units_loop ob l t) p.1).getD 0 : ℚ) -
            (if ob.contains p.1 then 1 else 0)))).sum =
        recompose l (greedy_raw l t) := by
  intro l
  induction l with
  | nil => intro t _; simp [units_loop, greedy_raw, recompose]
  | cons hd rest ih =>
      intro t hnd
      obtain ⟨n, c⟩ := hd
      rw [List.map_cons, List.nodup_cons] at hnd
      obtain ⟨hnotin, hndr⟩ := hnd
      have hvl : units_loop ob ((n, c) :: rest) t =
          (n, if ob.contains n then qtrunc (from_base c (t - dmod t (to_base c 1))) + 1
              else qtrunc (from_base c (t - dmod t (to_base c 1)))) ::
            units_loop ob rest (dmod t (to_base c 1)) := rfl
      have hhead : lookup_val (units_loop ob ((n, c) :: rest) t) n =
          some (if ob.contains n then qtrunc (from_base c (t - dmod t (to_base c 1))) + 1
              else qtrunc (from_base c (t - dmod t (to_base c 1)))) := by
        rw [hvl]
        simp [lookup_val]
      have htail : ∀ q ∈ rest,
          lookup_val (units_loop ob ((n, c) :: rest) t) q.1 =
            lookup_val (units_loop ob rest (dmod t (to_base c 1))) q.1 := by
        intro q hq
        have hne : n ≠ q.1 := by
          intro h
          exact hnotin (List.mem_map.mpr ⟨q, hq, h.symm⟩)
        rw [hvl]
        unfold lookup_val
        rw [List.find?_cons_of_neg]
        simp [hne]
      rw [List.map_cons, List.sum_cons]
      have hmapeq : rest.map (fun q => to_base q.2
            (((lookup_val (units_loop ob ((n, c) :: rest) t) q.1).getD 0 : ℚ) -
              (if ob.contains q.1 then 1 else 0))) =
          rest.map (fun q => to_base q.2
            (((lookup_val (units_loop ob rest (dmod t (to_base c 1))) q.1).getD 0 : ℚ) -
              (if ob.contains q.1 then 1 else 0))) := by
        refine List.map_congr_left ?_
        intro q hq
        rw [htail q hq]
      rw [hmapeq, ih (dmod t (to_base c 1)) hndr]
      have hheadval : to_base c
          (((lookup_val (units_loop ob ((n, c) :: rest) t) n).getD 0 : ℚ) -
            (if ob.contains n then 1 else 0)) =
          (qtrunc (from_base c (t - dmod t (to_base c 1))) : ℚ) * to_base c 1 := by
        rw [hhead]
        by_cases hob : ob.contains n = true
        · rw [if_pos hob, if_pos hob]
          simp only [Option.getD_some]
          rw [to_base_eq_mul]
          push_cast
          ring
        · rw [if_neg hob, if_neg hob]
          simp only [Option.getD_some, sub_zero]
          rw [to_base_eq_mul]
      rw [hheadval]
      simp only [greedy_raw, recompose]

/-- A successful unit lookup names a table entry. -/
theorem lookup_unit_mem_table {cs : CompiledSys} {tok : String} {c : CUnit}
    (h : lookup_unit cs tok = some c) : ∃ p ∈ cs.units, p.2 = c := by
  unfold lookup_unit at h
  cases hf : cs.units.find? (fun p => p.1 = tok) with
  | none => rw [hf] at h; simp at h
  | some q =>
      rw [hf] at h
      simp only [Option.map_some'] at h
      exact ⟨q, List.mem_of_find?_eq_some hf, (Option.some.injEq _ _).mp h⟩

/-- Every unit compile derives for the Gregorian definitions has a positive
lineage product. -/
theorem gregTable_pos : ∀ p ∈ gregTable, 0 < to_base p.2 1 := by
  intro p hp
  simp only [gregTable, List.mem_cons, List.not_mem_nil, or_false] at hp
  rcases hp with h | h | h | h | h <;> subst h <;>
    norm_num [to_base, gregMinute, gregHour, gregDay, gregYear]

set_option maxHeartbeats 1000000 in
/-- C1 (amended): for a compiled system with no repeating divisions and a
template whose tokens reference only units (no exact divisions), every
referenced unit having a positive lineage product and at least one unit
being referenced, the round trip closes at the token level on the image of
the formatter: formatting any nonnegative date t yields tokens outToks
with format_to_base(outToks, template, 0) = v and
base_to_format(v, template) = outToks again. -/
theorem C1_round_trip_amended (cs : CompiledSys) (fmtToks ob : List String) (t : ℚ)
    (hrd : cs.repeating_divs = [])
    (hdiv : ∀ tok ∈ fmtToks, find_exact_div cs tok = none)
    (hpos : ∀ tok c, tok ∈ fmtToks → lookup_unit cs tok = some c → 0 < to_base c 1)
    (hsome : ∃ tok ∈ fmtToks, (lookup_unit cs tok).isSome = true)
    (ht : 0 ≤ t) :
    ∃ outToks v,
      base_to_format_tokens cs fmtToks none ob t = Except.ok outToks ∧
        format_to_base cs outToks fmtToks none 0 ob = Except.ok v ∧
        base_to_format_tokens cs fmtToks none ob v = Except.ok outToks := by
  classical
  have hUperm := sort_desc_perm (collect_units cs fmtToks [])
  have hposU : ∀ p ∈ collect_units cs fmtToks [], 0 < to_base p.2 1 := by
    intro p hp
    rcases collect_units_mem cs fmtToks [] p hp with h | h
    · simp at h
    · exact hpos p.1 p.2 h.1 h.2
  have hposS : ∀ p ∈ sort_desc (collect_units cs fmtToks []), 0 < to_base p.2 1 :=
    fun p hp => hposU p (hUperm.mem_iff.mp hp)
  have hndU : ((collect_units cs fmtToks []).map (fun p => p.1)).Nodup :=
    collect_units_nodup_keys cs fmtToks [] (by simp)
  have hndS : ((sort_desc (collect_units cs fmtToks [])).map (fun p => p.1)).Nodup :=
    ((hUperm.map (fun p => p.1)).nodup_iff).mpr hndU
  have hv : ∀ tok c, tok ∈ fmtToks → lookup_unit cs tok = some c →
      ∃ v, lookup_val (units_loop ob (sort_desc (collect_units cs fmtToks [])) t) tok
          = some v ∧ 0 ≤ v := by
    intro tok c htok hl
    obtain ⟨q, hqU, hqk⟩ :=
      collect_units_key_present cs fmtToks [] tok htok (by rw [hl]; rfl)
    have hqS : q ∈ sort_desc (collect_units cs fmtToks []) := hUperm.mem_iff.mpr hqU
    have hkmem : tok ∈ (units_loop ob (sort_desc (collect_units cs fmtToks [])) t).map
        (fun p => p.1) := by
      rw [units_loop_keys ob (sort_desc (collect_units cs fmtToks [])) t]
      exact List.mem_map.mpr ⟨q, hqS, hqk⟩
    obtain ⟨r, hr, hrk⟩ := List.mem_map.mp hkmem
    have hfs : ∃ x ∈ units_loop ob (sort_desc (collect_units cs fmtToks [])) t,
        (fun p => decide (p.1 = tok)) x = true := ⟨r, hr, by simp [hrk]⟩
    have hfsome := List.find?_isSome.mpr hfs
    cases hf : (units_loop ob (sort_desc (collect_units cs fmtToks [])) t).find?
        (fun p => p.1 = tok) with
    | none => rw [hf] at hfsome; simp at hfsome
    | some q0 =>
        refine ⟨q0.2, ?_, ?_⟩
        · unfold lookup_val
          rw [hf]
          rfl
        · exact units_loop_nonneg ob (sort_desc (collect_units cs fmtToks [])) t
            hposS ht q0 (List.mem_of_find?_eq_some hf)
  have hclass := classify_units_only cs ob
      (units_loop ob (sort_desc (collect_units cs fmtToks [])) t) hrd fmtToks
      ⟨[], [], [], []⟩ hdiv hv (fun p hp => absurd hp (List.not_mem_nil p)) rfl
  have hSne : sort_desc (collect_units cs fmtToks []) ≠ [] := by
    obtain ⟨tok, htok, hsm⟩ := hsome
    obtain ⟨q, hqU, hqk⟩ := collect_units_key_present cs fmtToks [] tok htok hsm
    exact List.ne_nil_of_mem (hUperm.mem_iff.mpr hqU)
  obtain ⟨sm, hlast⟩ : ∃ sm, (sort_desc (collect_units cs fmtToks [])).getLast? = some sm := by
    cases hgl : (sort_desc (collect_units cs fmtToks [])).getLast? with
    | none => exact absurd (List.getLast?_eq_none_iff.mp hgl) hSne
    | some sm => exact ⟨sm, rfl⟩
  have hsum : ((collect_units cs fmtToks []).map (fun p => to_base p.2
      (((lookup_val (units_loop ob (sort_desc (collect_units cs fmtToks [])) t) p.1).getD 0 : ℚ) -
        (if ob.contains p.1 then 1 else 0)))).sum =
      recompose (sort_desc (collect_units cs fmtToks []))
        (greedy_raw (sort_desc (collect_units cs fmtToks [])) t) := by
    have hps := (List.Perm.map (fun p => to_base p.2
      (((lookup_val (units_loop ob (sort_desc (collect_units cs fmtToks [])) t) p.1).getD 0 : ℚ) -
        (if ob.contains p.1 then 1 else 0))) hUperm).sum_eq
    rw [← hps]
    exact sum_contribs_eq_recompose ob (sort_desc (collect_units cs fmtToks [])) t hndS
  have hmm : (((collect_units cs fmtToks []).map (fun p =>
        (p.1, to_base p.2
          (((lookup_val (units_loop ob (sort_desc (collect_units cs fmtToks [])) t) p.1).getD 0 : ℚ) -
            (if ob.contains p.1 then 1 else 0))))).map (fun p => p.2)) =
      (collect_units cs fmtToks []).map (fun p => to_base p.2
        (((lookup_val (units_loop ob (sort_desc (collect_units cs fmtToks [])) t) p.1).getD 0 : ℚ) -
          (if ob.contains p.1 then 1 else 0))) := by
    rw [List.map_map]
    rfl
  refine ⟨fmtToks.map (subst_tok (units_loop ob (sort_desc (collect_units cs fmtToks [])) t)),
    recompose (sort_desc (collect_units cs fmtToks []))
      (greedy_raw (sort_desc (collect_units cs fmtToks [])) t),
    b2f_tokens_units_only cs fmtToks ob t hrd hdiv ht, ?_, ?_⟩
  · simp only [format_to_base, List.length_map, zip_self_map, hclass, foldl_add_init,
      f2b_exact_divs, List.isEmpty_nil, hlast, dmod_zero_left, add_zero, zero_add,
      eq_self_iff_true, ite_true, if_true, Bool.false_eq_true, if_false, ite_false]
    rw [hmm, hsum]
  · have hidem : greedy_raw (sort_desc (collect_units cs fmtToks []))
        (recompose (sort_desc (collect_units cs fmtToks []))
          (greedy_raw (sort_desc (collect_units cs fmtToks [])) t)) =
        greedy_raw (sort_desc (collect_units cs fmtToks [])) t :=
      greedy_raw_idem (sort_desc (collect_units cs fmtToks [])) t hposS ht
    have hv0 : 0 ≤ recompose (sort_desc (collect_units cs fmtToks []))
        (greedy_raw (sort_desc (collect_units cs fmtToks [])) t) :=
      (recompose_greedy_bounds (sort_desc (collect_units cs fmtToks [])) t hposS ht).1
    rw [b2f_tokens_units_only cs fmtToks ob
        (recompose (sort_desc (collect_units cs fmtToks []))
          (greedy_raw (sort_desc (collect_units cs fmtToks [])) t)) hrd hdiv hv0,
      units_loop_eq_zip, units_loop_eq_zip, hidem]

/-- C1 witness: the amended round trip instantiated on the compiled
Gregorian system with the template ":Year:Second:", observer-free, at one
year and one second past the epoch. -/
theorem C1_round_trip_witness :
    ∃ outToks v,
      base_to_format_tokens gregU [":", "Year", ":", "Second", ":"] none [] 31556953 =
          Except.ok outToks ∧
        format_to_base gregU outToks [":", "Year", ":", "Second", ":"] none 0 [] =
          Except.ok v ∧
        base_to_format_tokens gregU [":", "Year", ":", "Second", ":"] none [] v =
          Except.ok outToks :=
  C1_round_trip_amended gregU [":", "Year", ":", "Second", ":"] [] 31556953
    (by simp [gregU_eq])
    (by intro tok _; simp [gregU_eq, find_exact_div])
    (by
      intro tok c _ hl
      rw [gregU_eq] at hl
      obtain ⟨p, hp, hpc⟩ := lookup_unit_mem_table hl
      rw [← hpc]
      exact gregTable_pos p hp)
    ⟨"Year", by decide, by rw [gregU_eq]; decide⟩
    (by norm_num)

end TimeSystem
